import Mathlib

/-!
Verification of the fixed-width bit-vector core (`Bits<N>`) of
`pypy/module/mamba/bits.py` against its specification.

The big-integer payload (`rpython.rlib.rbigint`) lives outside the
translated sources; following the spec's data model (§3), a *normalised*
non-negative big integer is fully determined by its integer value, its
digit array holding the base-`2^SHIFT` digits of the magnitude.  We
therefore embed an `rbigint` as the `Int` it denotes and derive the digit
accessors (`numdigits`, `digit`, `setdigit`) arithmetically from the
value; the in-source digit-array routines of `bits.py` are translated
branch by branch against these accessors.
-/

namespace Mamba

/-- Per-digit bit width of the big-integer representation; the spec fixes the
64-bit platform value (`SHIFT = 63`). -/
def SHIFT : Nat := 63

/-- Fuel-driven binary length: `bitLenAux fuel n` counts how many times `n`
must be halved to reach zero, provided `n ≤ fuel`.  Structural recursion on
the fuel keeps the definition kernel-reducible. -/
def bitLenAux : Nat → Nat → Nat
  | 0, _ => 0
  | fuel + 1, n => if n = 0 then 0 else bitLenAux fuel (n / 2) + 1

/-- Number of binary digits of `n` (0 for 0): the bit length used by the
big-integer layer. -/
def bitLen (n : Nat) : Nat := bitLenAux n n

theorem bitLenAux_spec : ∀ fuel n, n ≤ fuel →
    n < 2 ^ bitLenAux fuel n ∧ (n ≠ 0 → 2 ^ (bitLenAux fuel n - 1) ≤ n) := by
  intro fuel
  induction fuel with
  | zero =>
    intro n hn
    have h0 : n = 0 := by omega
    subst h0
    simp [bitLenAux]
  | succ fuel ih =>
    intro n hn
    by_cases h0 : n = 0
    · subst h0; simp [bitLenAux]
    · have hhalf : n / 2 ≤ fuel := by omega
      obtain ⟨h1, h2⟩ := ih (n / 2) hhalf
      constructor
      · simp only [bitLenAux, h0, if_false]
        have hstep : n < 2 * (n / 2) + 2 := by omega
        calc n < 2 * (n / 2) + 2 := hstep
          _ ≤ 2 * 2 ^ bitLenAux fuel (n / 2) := by omega
          _ = 2 ^ (bitLenAux fuel (n / 2) + 1) := by ring
      · intro _
        simp only [bitLenAux, h0, if_false]
        by_cases hh : n / 2 = 0
        · have hbl : bitLenAux fuel (n / 2) = 0 := by
            cases fuel <;> simp [bitLenAux, hh]
          rw [hbl]
          simpa using Nat.one_le_iff_ne_zero.2 h0
        · have hge := h2 hh
          have hb : 1 ≤ bitLenAux fuel (n / 2) := by
            by_contra hc
            push_neg at hc
            have hz : bitLenAux fuel (n / 2) = 0 := by omega
            rw [hz] at h1
            simp at h1
            omega
          have hpow : 2 ^ (bitLenAux fuel (n / 2) - 1 + 1) ≤ 2 * (n / 2) := by
            rw [pow_succ]
            omega
          have heq : bitLenAux fuel (n / 2) - 1 + 1 = bitLenAux fuel (n / 2) := by omega
          rw [heq] at hpow
          have h2n : 2 * (n / 2) ≤ n := by omega
          simpa using le_trans hpow h2n

theorem lt_two_pow_bitLen (n : Nat) : n < 2 ^ bitLen n :=
  (bitLenAux_spec n n le_rfl).1

theorem two_pow_bitLen_pred_le {n : Nat} (h : n ≠ 0) : 2 ^ (bitLen n - 1) ≤ n :=
  (bitLenAux_spec n n le_rfl).2 h

theorem bitLen_zero : bitLen 0 = 0 := rfl

theorem bitLen_le_iff {n k : Nat} : bitLen n ≤ k ↔ n < 2 ^ k := by
  constructor
  · intro h
    exact lt_of_lt_of_le (lt_two_pow_bitLen n) (Nat.pow_le_pow_right (by norm_num) h)
  · intro h
    by_contra hc
    push_neg at hc
    have hn0 : n ≠ 0 := by
      rintro rfl
      rw [bitLen_zero] at hc
      omega
    have hle := two_pow_bitLen_pred_le hn0
    have hk : k ≤ bitLen n - 1 := by omega
    have : 2 ^ k ≤ n := le_trans (Nat.pow_le_pow_right (by norm_num) hk) hle
    omega

/-- `x`-th base-`2^SHIFT` digit of a natural number. -/
def digitN (n : Nat) (i : Nat) : Nat := n / 2 ^ (SHIFT * i) % 2 ^ SHIFT

/-- Replace the `i`-th base-`2^SHIFT` digit of `n` by `d` (the value-level
reading of `rbigint.setdigit`). -/
def setdigitN (n : Nat) (i : Nat) (d : Nat) : Nat :=
  n % 2 ^ (SHIFT * i) + d * 2 ^ (SHIFT * i) +
    n / 2 ^ (SHIFT * (i + 1)) * 2 ^ (SHIFT * (i + 1))

/-- `rbigint.numdigits`: number of significant base-`2^SHIFT` digits of the
magnitude, at least 1 (spec §3: `size`). -/
def rb_numdigits (v : Int) : Nat := max 1 ((bitLen v.natAbs + (SHIFT - 1)) / SHIFT)

/-- `rbigint.digit`: the `i`-th digit of the magnitude; digits beyond the
significant range read as zero (spec §3: trailing zero digits beyond `size`
are not significant). -/
def rb_digit (v : Int) (i : Nat) : Nat := digitN v.natAbs i

/-- `rbigint.sign` (spec §3: 1 for positive, 0 for zero; negative values are
only transient). -/
def rb_sign (v : Int) : Int := Int.sign v

theorem one_le_rb_numdigits (v : Int) : 1 ≤ rb_numdigits v :=
  le_max_left 1 _

theorem natAbs_lt_shift_numdigits (v : Int) :
    v.natAbs < 2 ^ (SHIFT * rb_numdigits v) := by
  have h1 : v.natAbs < 2 ^ bitLen v.natAbs := lt_two_pow_bitLen _
  have h2 : bitLen v.natAbs ≤ SHIFT * rb_numdigits v := by
    have hS : SHIFT = 63 := rfl
    unfold rb_numdigits
    rw [hS]
    generalize bitLen v.natAbs = L
    omega
  exact lt_of_lt_of_le h1 (Nat.pow_le_pow_right (by norm_num) h2)

theorem rb_numdigits_le_iff {v : Int} {k : Nat} (hk : 1 ≤ k) :
    rb_numdigits v ≤ k ↔ v.natAbs < 2 ^ (SHIFT * k) := by
  have hS : SHIFT = 63 := rfl
  constructor
  · intro h
    exact lt_of_lt_of_le (natAbs_lt_shift_numdigits v)
      (Nat.pow_le_pow_right (by norm_num) (Nat.mul_le_mul_left _ h))
  · intro h
    have hL : bitLen v.natAbs ≤ SHIFT * k := bitLen_le_iff.2 h
    unfold rb_numdigits
    rw [hS] at hL ⊢
    omega

/-- `get_int_mask(i) = (1 << i) - 1` as a machine integer. -/
def get_int_mask (i : Nat) : Int := 2 ^ i - 1

/-- Value of `LONG_MASKS[i]`, the precomputed all-ones big integer of width
`i` (built by `mask = mask*2 + 1` starting from 0). -/
def get_long_mask (i : Nat) : Int := 2 ^ i - 1

/-- Error kinds surfaced at the interpreter boundary. -/
inductive OpErr where
  | valueError
  | typeError
  | overflowError
deriving DecidableEq

/-- `int_bit_length` (bits.py lines 44-53): bit length of a machine integer;
a negative value is first mapped through `val = -((val + 1) >> 1)` with one
extra bit counted. -/
def int_bit_length (val : Int) : Nat :=
  if val < 0 then 1 + bitLen (-((val + 1) / 2)).toNat
  else bitLen val.toNat

/-!  External `rpython.rlib.rbigint` operations used by `bits.py`.  They are
not part of the translated sources; each is modelled from the spec at the
level of the integer value an `rbigint` denotes. -/

/-- Modelled from the spec: `rbigint.fromint` wraps a machine integer as a
big integer of the same value (missing: `rpython.rlib.rbigint.fromint`). -/
def rb_fromint (i : Int) : Int := i

/-- Modelled from the spec: generic big-integer AND (`rbigint.and_` /
`rbigint.int_and_`), two's-complement bitwise AND of the values (missing:
`rpython.rlib.rbigint`); per §4.5/§9 ANDing with an N-bit mask implements
the two's-complement wrap. -/
def rb_and (a b : Int) : Int := Int.land a b

/-- Modelled from the spec: generic big-integer OR (`rbigint.or_` /
`rbigint.int_or_`) (missing: `rpython.rlib.rbigint`). -/
def rb_or (a b : Int) : Int := Int.lor a b

/-- Modelled from the spec: generic big-integer XOR (`rbigint.xor` /
`rbigint.int_xor`) (missing: `rpython.rlib.rbigint`). -/
def rb_xor (a b : Int) : Int := Int.xor a b

/-- Modelled from the spec: `rbigint.lshift` by a non-negative amount
(missing: `rpython.rlib.rbigint.lshift`). -/
def rb_lshift (v : Int) (s : Nat) : Int := v * 2 ^ s

/-- Modelled from the spec: `rbigint.rshift`, an arithmetic right shift that
raises a value error on a negative shift amount (missing:
`rpython.rlib.rbigint.rshift`; §4.7). -/
def rb_rshift (v : Int) (s : Int) : Except OpErr Int :=
  if s < 0 then .error .valueError else .ok (Int.shiftRight v s.toNat)

/-- Modelled from the spec: `rbigint.bit_length`, the bit length of the
magnitude (missing: `rpython.rlib.rbigint.bit_length`). -/
def rb_bit_length (v : Int) : Nat := bitLen v.natAbs

/-- Modelled from the spec: `rbigint.toint` projects a big integer into a
machine integer, raising an overflow error when it does not fit (missing:
`rpython.rlib.rbigint.toint`). -/
def rb_toint (v : Int) : Except OpErr Int :=
  if -(2 ^ 63) ≤ v ∧ v < 2 ^ 63 then .ok v else .error .overflowError

/-- `_rbigint_maskoff_high` (bits.py lines 74-97): keep the low `masklen`
bits of a non-negative big integer.  `rbigint(value._digits[:masksize], 1,
masksize)` keeps the low `masksize` digits of the magnitude; the top kept
digit is ANDed with `get_int_mask(masklen % SHIFT)` when that is nonzero. -/
def _rbigint_maskoff_high (value : Int) (masklen : Nat) : Int :=
  if value = 0 then value  -- `if not value.sign: return value`
  else
    let lastword := (masklen - 1) / SHIFT
    let masksize := lastword + 1
    if masksize > rb_numdigits value then value
    else
      -- `ret = rbigint(value._digits[:masksize], 1, masksize)`
      let ret : Nat := value.natAbs % 2 ^ (SHIFT * masksize)
      let maskbit := masklen % SHIFT
      if maskbit ≠ 0 then
        let lastdigit := digitN ret lastword
        let mask := 2 ^ maskbit - 1
        if mask ≤ lastdigit then
          ((setdigitN ret lastword (lastdigit &&& mask) : Nat) : Int)
        else (ret : Int)
      else (ret : Int)

theorem setdigitN_eq (n i d : Nat) :
    setdigitN n i d = n % 2 ^ (SHIFT * i) + d * 2 ^ (SHIFT * i) +
      n / 2 ^ (SHIFT * (i + 1)) * 2 ^ (SHIFT * (i + 1)) := rfl

/-- Splitting a remainder at a digit boundary:
`n % 2^(s+t) = n % 2^s + (n / 2^s % 2^t) * 2^s`. -/
theorem mod_pow_split (n s t : Nat) :
    n % 2 ^ (s + t) = n % 2 ^ s + n / 2 ^ s % 2 ^ t * 2 ^ s := by
  rw [pow_add, Nat.mod_mul]
  ring

/-- Digit `i` of a truncation to `i+1` digits is digit `i` of the number. -/
theorem digitN_mod_succ (n i : Nat) :
    digitN (n % 2 ^ (SHIFT * (i + 1))) i = n / 2 ^ (SHIFT * i) % 2 ^ SHIFT := by
  unfold digitN
  have hsplit : (2 : Nat) ^ (SHIFT * (i + 1)) = 2 ^ (SHIFT * i) * 2 ^ SHIFT := by
    rw [← pow_add]
    ring_nf
  rw [hsplit, Nat.mod_mul_right_div_self,
    Nat.mod_eq_of_lt (Nat.mod_lt _ (Nat.pos_pow_of_pos _ (by norm_num)))]

set_option maxHeartbeats 1000000 in
theorem _rbigint_maskoff_high_eq (value : Int) (masklen : Nat)
    (hv : 0 ≤ value) (hm : 1 ≤ masklen) :
    _rbigint_maskoff_high value masklen = value % ((2 : Int) ^ masklen) := by
  unfold _rbigint_maskoff_high
  by_cases h0 : value = 0
  · simp [h0]
  simp only [h0, if_false]
  have hS : SHIFT = 63 := rfl
  have habs : ((value.natAbs : Nat) : Int) = value := Int.natAbs_of_nonneg hv
  have hcast : value % ((2 : Int) ^ masklen) = ((value.natAbs % 2 ^ masklen : Nat) : Int) := by
    rw [← habs]
    norm_cast
  set n := value.natAbs with hn
  set lastword := (masklen - 1) / SHIFT with hlw
  set masksize := lastword + 1 with hms
  set maskbit := masklen % SHIFT with hmb
  by_cases hbig : masksize > rb_numdigits value
  · -- value has fewer digits than the mask: it is already < 2^masklen
    simp only [hbig, if_true]
    have h1d := one_le_rb_numdigits value
    have hnum : rb_numdigits value ≤ lastword := by omega
    have hlw1 : 1 ≤ lastword := le_trans h1d hnum
    have hlt : n < 2 ^ (SHIFT * lastword) := (rb_numdigits_le_iff hlw1).1 hnum
    have hle : SHIFT * lastword ≤ masklen := by
      rw [hlw, Nat.mul_comm]
      exact le_trans (Nat.div_mul_le_self _ _) (by omega)
    have hvlt : value < (2 : Int) ^ masklen := by
      have h2 : n < 2 ^ masklen :=
        lt_of_lt_of_le hlt (Nat.pow_le_pow_right (by norm_num) hle)
      calc value = (n : Int) := habs.symm
        _ < ((2 ^ masklen : Nat) : Int) := by exact_mod_cast h2
        _ = (2 : Int) ^ masklen := by push_cast; ring
    rw [Int.emod_eq_of_lt hv hvlt]
  · simp only [hbig, if_false]
    have harith : (maskbit ≠ 0 → SHIFT * lastword + maskbit = masklen) ∧
        (maskbit = 0 → SHIFT * masksize = masklen) := by
      rw [hms, hlw, hmb, hS]
      constructor <;> intro h <;> omega
    have hdig : digitN (n % 2 ^ (SHIFT * masksize)) lastword
        = n / 2 ^ (SHIFT * lastword) % 2 ^ SHIFT := by
      rw [hms]
      exact digitN_mod_succ n lastword
    by_cases hmb0 : maskbit ≠ 0
    · rw [if_pos hmb0]
      have hsum : SHIFT * lastword + maskbit = masklen := harith.1 hmb0
      -- common form of both inner branches
      have key : ∀ d : Nat, d = digitN (n % 2 ^ (SHIFT * masksize)) lastword % 2 ^ maskbit →
          n % 2 ^ (SHIFT * masksize) % 2 ^ (SHIFT * lastword) + d * 2 ^ (SHIFT * lastword)
            = n % 2 ^ masklen := by
        intro d hd
        have hretlow : n % 2 ^ (SHIFT * masksize) % 2 ^ (SHIFT * lastword)
            = n % 2 ^ (SHIFT * lastword) :=
          Nat.mod_mod_of_dvd _ (pow_dvd_pow 2 (by rw [hms, hS]; omega))
        have hmb_le : maskbit ≤ SHIFT := by
          rw [hmb]
          exact Nat.le_of_lt (Nat.mod_lt masklen (by rw [hS]; norm_num))
        have hdd : d = n / 2 ^ (SHIFT * lastword) % 2 ^ maskbit := by
          rw [hd, hdig, Nat.mod_mod_of_dvd _ (pow_dvd_pow 2 hmb_le)]
        rw [hretlow, hdd, ← hsum, mod_pow_split]
      by_cases hge : 2 ^ maskbit - 1 ≤ digitN (n % 2 ^ (SHIFT * masksize)) lastword
      · rw [if_pos hge]
        rw [hcast]
        refine Int.natCast_inj.mpr ?_
        have hmask : digitN (n % 2 ^ (SHIFT * masksize)) lastword &&& (2 ^ maskbit - 1)
            = digitN (n % 2 ^ (SHIFT * masksize)) lastword % 2 ^ maskbit :=
          Nat.and_pow_two_sub_one_eq_mod _ _
        have hhi : n % 2 ^ (SHIFT * masksize) / 2 ^ (SHIFT * (lastword + 1)) = 0 := by
          apply Nat.div_eq_of_lt
          exact lt_of_lt_of_le (Nat.mod_lt _ (Nat.pos_pow_of_pos _ (by norm_num)))
            (Nat.pow_le_pow_right (by norm_num) (by rw [hms]))
        rw [setdigitN_eq, hhi, Nat.zero_mul, Nat.add_zero, hmask, key _ rfl]
      · rw [if_neg hge]
        rw [hcast]
        refine Int.natCast_inj.mpr ?_
        have hsmall : digitN (n % 2 ^ (SHIFT * masksize)) lastword < 2 ^ maskbit := by omega
        have hmod : digitN (n % 2 ^ (SHIFT * masksize)) lastword % 2 ^ maskbit
            = digitN (n % 2 ^ (SHIFT * masksize)) lastword := Nat.mod_eq_of_lt hsmall
        have hrec : n % 2 ^ (SHIFT * masksize)
            = n % 2 ^ (SHIFT * masksize) % 2 ^ (SHIFT * lastword)
              + digitN (n % 2 ^ (SHIFT * masksize)) lastword * 2 ^ (SHIFT * lastword) := by
          rw [hdig, Nat.mod_mod_of_dvd _ (pow_dvd_pow 2 (by rw [hms, hS]; omega)),
            show SHIFT * masksize = SHIFT * lastword + SHIFT by rw [hms]; ring]
          exact mod_pow_split n _ _
        rw [hrec, key _ hmod.symm]
    · rw [if_neg hmb0]
      rw [hcast]
      refine Int.natCast_inj.mpr ?_
      push_neg at hmb0
      rw [harith.2 hmb0]

/-! ### Bit-manipulation toolkit -/

theorem lor_mul_pow {x y k : Nat} (hx : x < 2 ^ k) :
    x ||| y * 2 ^ k = x + y * 2 ^ k := by
  rw [Nat.lor_comm, Nat.mul_comm y, ← Nat.mul_add_lt_is_or hx y]
  ring

theorem mul_pow_lor {x y k : Nat} (hx : x < 2 ^ k) :
    y * 2 ^ k ||| x = x + y * 2 ^ k := by
  rw [Nat.lor_comm]
  exact lor_mul_pow hx

/-- ANDing with the complement of a low mask keeps the bits from `t` up:
`d & ~(2^t - 1) = d / 2^t * 2^t`. -/
theorem ldiff_two_pow_sub_one (d t : Nat) :
    Nat.ldiff d (2 ^ t - 1) = d / 2 ^ t * 2 ^ t := by
  apply Nat.eq_of_testBit_eq
  intro j
  rw [Nat.testBit_ldiff, Nat.testBit_two_pow_sub_one,
    show d / 2 ^ t * 2 ^ t = 2 ^ t * (d >>> t) by
      rw [Nat.shiftRight_eq_div_pow]; ring,
    Nat.testBit_mul_pow_two, Nat.testBit_shiftRight]
  by_cases h : t ≤ j
  · simp [h, Nat.not_lt.mpr h, Nat.add_sub_cancel' h]
  · simp [h, Nat.lt_of_not_le h]

/-- ANDing with the complement of the mask of bits `[lo, hi)` clears exactly
that bit range: `d & ~(2^hi - 2^lo) = d % 2^lo + d / 2^hi * 2^hi`. -/
theorem ldiff_pow_sub_pow {d lo hi : Nat} (h : lo ≤ hi) :
    Nat.ldiff d (2 ^ hi - 2 ^ lo) = d % 2 ^ lo + d / 2 ^ hi * 2 ^ hi := by
  apply Nat.eq_of_testBit_eq
  intro j
  have hmask : (2 : Nat) ^ hi - 2 ^ lo = (2 ^ (hi - lo) - 1) <<< lo := by
    rw [Nat.shiftLeft_eq, Nat.sub_mul, ← pow_add, one_mul]
    congr 2
    omega
  have hlt : d % 2 ^ lo < 2 ^ hi :=
    lt_of_lt_of_le (Nat.mod_lt _ (Nat.pos_pow_of_pos _ (by norm_num)))
      (Nat.pow_le_pow_right (by norm_num) h)
  rw [hmask, Nat.testBit_ldiff, Nat.testBit_shiftLeft, Nat.testBit_two_pow_sub_one,
    show d % 2 ^ lo + d / 2 ^ hi * 2 ^ hi = 2 ^ hi * (d >>> hi) + d % 2 ^ lo by
      rw [Nat.shiftRight_eq_div_pow]; ring,
    Nat.testBit_mul_pow_two_add _ hlt]
  by_cases h1 : j < lo
  · have h2 : j < hi := lt_of_lt_of_le h1 h
    simp [h1, h2, Nat.not_le_of_lt h1, Nat.testBit_mod_two_pow]
  · by_cases h2 : j < hi
    · simp [h1, h2, Nat.le_of_not_lt h1, Nat.testBit_mod_two_pow]
      omega
    · have h3 : lo ≤ j := Nat.le_of_not_lt h1
      simp [h1, h2, h3, Nat.testBit_shiftRight, Nat.testBit_mod_two_pow,
        Nat.add_sub_cancel' (Nat.le_of_not_lt h2)]
      omega

/-- Exchanging an inner truncation with a division:
`x % 2^(a+b) / 2^a = x / 2^a % 2^b`. -/
theorem mod_pow_div_pow (x a b : Nat) : x % 2 ^ (a + b) / 2 ^ a = x / 2 ^ a % 2 ^ b := by
  rw [pow_add, Nat.mod_mul_right_div_self]

theorem setdigitN_digit_self (n i : Nat) : setdigitN n i (digitN n i) = n := by
  unfold setdigitN digitN
  rw [← mod_pow_split n (SHIFT * i) SHIFT,
    show SHIFT * i + SHIFT = SHIFT * (i + 1) by ring]
  exact Nat.mod_add_div' n _

/-- Masking the top digit of `m % 2^(SHIFT*(lastword+1))` with the
`masklen`-bit boundary mask yields `m % 2^masklen` (`maskbit ≠ 0` case shared
by `_rbigint_maskoff_high` and `_rbigint_rshift_maskoff`). -/
theorem trunc_mask_case_ne (m masklen : Nat) (hm : 1 ≤ masklen)
    (hmb : masklen % SHIFT ≠ 0) :
    (if 2 ^ (masklen % SHIFT) - 1 ≤
        digitN (m % 2 ^ (SHIFT * ((masklen - 1) / SHIFT + 1))) ((masklen - 1) / SHIFT) then
      setdigitN (m % 2 ^ (SHIFT * ((masklen - 1) / SHIFT + 1))) ((masklen - 1) / SHIFT)
        (digitN (m % 2 ^ (SHIFT * ((masklen - 1) / SHIFT + 1))) ((masklen - 1) / SHIFT) &&&
          (2 ^ (masklen % SHIFT) - 1))
    else m % 2 ^ (SHIFT * ((masklen - 1) / SHIFT + 1))) = m % 2 ^ masklen := by
  have hS : SHIFT = 63 := rfl
  set lastword := (masklen - 1) / SHIFT with hlw
  set maskbit := masklen % SHIFT with hmbdef
  have hsum : SHIFT * lastword + maskbit = masklen := by
    rw [hmbdef] at hmb
    rw [hS] at hmb
    rw [hlw, hmbdef, hS]
    omega
  have hdig : digitN (m % 2 ^ (SHIFT * (lastword + 1))) lastword
      = m / 2 ^ (SHIFT * lastword) % 2 ^ SHIFT := digitN_mod_succ m lastword
  have hretlow : m % 2 ^ (SHIFT * (lastword + 1)) % 2 ^ (SHIFT * lastword)
      = m % 2 ^ (SHIFT * lastword) :=
    Nat.mod_mod_of_dvd _ (pow_dvd_pow 2 (by rw [hS]; omega))
  have hmb_le : maskbit ≤ SHIFT := by
    rw [hmbdef]
    exact Nat.le_of_lt (Nat.mod_lt masklen (by rw [hS]; norm_num))
  have key : ∀ d : Nat, d = digitN (m % 2 ^ (SHIFT * (lastword + 1))) lastword % 2 ^ maskbit →
      m % 2 ^ (SHIFT * (lastword + 1)) % 2 ^ (SHIFT * lastword) + d * 2 ^ (SHIFT * lastword)
        = m % 2 ^ masklen := by
    intro d hd
    have hdd : d = m / 2 ^ (SHIFT * lastword) % 2 ^ maskbit := by
      rw [hd, hdig, Nat.mod_mod_of_dvd _ (pow_dvd_pow 2 hmb_le)]
    rw [hretlow, hdd, ← hsum, mod_pow_split]
  by_cases hge : 2 ^ maskbit - 1 ≤ digitN (m % 2 ^ (SHIFT * (lastword + 1))) lastword
  · rw [if_pos hge]
    have hmask : digitN (m % 2 ^ (SHIFT * (lastword + 1))) lastword &&& (2 ^ maskbit - 1)
        = digitN (m % 2 ^ (SHIFT * (lastword + 1))) lastword % 2 ^ maskbit :=
      Nat.and_pow_two_sub_one_eq_mod _ _
    have hhi : m % 2 ^ (SHIFT * (lastword + 1)) / 2 ^ (SHIFT * (lastword + 1)) = 0 :=
      Nat.div_eq_of_lt (Nat.mod_lt _ (Nat.pos_pow_of_pos _ (by norm_num)))
    rw [setdigitN_eq, hhi, Nat.zero_mul, Nat.add_zero, hmask, key _ rfl]
  · rw [if_neg hge]
    have hsmall : digitN (m % 2 ^ (SHIFT * (lastword + 1))) lastword < 2 ^ maskbit := by omega
    have hmod : digitN (m % 2 ^ (SHIFT * (lastword + 1))) lastword % 2 ^ maskbit
        = digitN (m % 2 ^ (SHIFT * (lastword + 1))) lastword := Nat.mod_eq_of_lt hsmall
    have hrec : m % 2 ^ (SHIFT * (lastword + 1))
        = m % 2 ^ (SHIFT * (lastword + 1)) % 2 ^ (SHIFT * lastword)
          + digitN (m % 2 ^ (SHIFT * (lastword + 1))) lastword * 2 ^ (SHIFT * lastword) := by
      rw [hdig, hretlow, show SHIFT * (lastword + 1) = SHIFT * lastword + SHIFT by ring]
      exact mod_pow_split m _ _
    rw [hrec, key _ hmod.symm]

/-- When `masklen` is an exact digit-boundary multiple, truncating to
`(masklen-1)/SHIFT + 1` digits is exactly the `masklen`-bit truncation. -/
theorem trunc_mask_case_eq (m masklen : Nat) (hm : 1 ≤ masklen)
    (hmb : masklen % SHIFT = 0) :
    m % 2 ^ (SHIFT * ((masklen - 1) / SHIFT + 1)) = m % 2 ^ masklen := by
  have hS : SHIFT = 63 := rfl
  have hexp : SHIFT * ((masklen - 1) / SHIFT + 1) = masklen := by
    rw [hS]
    rw [hS] at hmb
    omega
  rw [hexp]

/-- Casting an `Int` remainder by a power of two to the remainder of its
magnitude, for non-negative values. -/
theorem emod_two_pow_eq_natAbs (value : Int) (k : Nat) (hv : 0 ≤ value) :
    value % ((2 : Int) ^ k) = ((value.natAbs % 2 ^ k : Nat) : Int) := by
  have habs : ((value.natAbs : Nat) : Int) = value := Int.natAbs_of_nonneg hv
  calc value % ((2 : Int) ^ k) = ((value.natAbs : Nat) : Int) % ((2 : Int) ^ k) := by
        rw [habs]
    _ = ((value.natAbs % 2 ^ k : Nat) : Int) := by norm_cast

theorem toNat_eq_natAbs {a : Int} (h : 0 ≤ a) : a.toNat = a.natAbs :=
  Int.natCast_inj.mp (by rw [Int.toNat_of_nonneg h, Int.natAbs_of_nonneg h])

theorem testBit_digitN (n i j : Nat) :
    (digitN n i).testBit j = (decide (j < SHIFT) && n.testBit (SHIFT * i + j)) := by
  unfold digitN
  rw [Nat.testBit_mod_two_pow, ← Nat.shiftRight_eq_div_pow, Nat.testBit_shiftRight]

theorem digitN_eq_zero_of_lt {n : Nat} {i : Nat} (h : n < 2 ^ (SHIFT * i)) :
    digitN n i = 0 := by
  unfold digitN
  rw [Nat.div_eq_of_lt h, Nat.zero_mod]

/-- `_rbigint_rshift` (bits.py lines 100-128): right shift of a big integer
by a big-integer amount.  A multi-digit amount yields zero; otherwise the
digit loop (lines 114-124) assembles the digits of
`|value| >> shamt.digit(0)`. -/
def _rbigint_rshift (value : Int) (shamt : Int) : Int :=
  if value = 0 ∨ shamt = 0 then value  -- `if not value.sign or not shamt.sign`
  else if 1 < rb_numdigits shamt then 0  -- NULLRBIGINT
  else
    let sh := rb_digit shamt 0
    let wordshift := sh / SHIFT
    if rb_numdigits value ≤ wordshift then 0  -- `newsize <= 0`
    else ((value.natAbs / 2 ^ sh : Nat) : Int)

theorem _rbigint_rshift_eq {value shamt : Int} (hv : 0 ≤ value) (hs : 0 ≤ shamt)
    (hv512 : value.natAbs < 2 ^ 512) :
    _rbigint_rshift value shamt = ((value.natAbs / 2 ^ shamt.toNat : Nat) : Int) := by
  unfold _rbigint_rshift
  have habs : ((value.natAbs : Nat) : Int) = value := Int.natAbs_of_nonneg hv
  by_cases h0 : value = 0 ∨ shamt = 0
  · rw [if_pos h0]
    rcases h0 with h0 | h0
    · simp [h0]
    · simp [h0, habs]
  · rw [if_neg h0]
    push_neg at h0
    by_cases hbig : 1 < rb_numdigits shamt
    · rw [if_pos hbig]
      have hge : 2 ^ (SHIFT * 1) ≤ shamt.natAbs := by
        by_contra hc
        push_neg at hc
        have := (rb_numdigits_le_iff le_rfl).2 hc
        omega
      have hS : SHIFT = 63 := rfl
      rw [hS] at hge
      have htn : shamt.toNat = shamt.natAbs := toNat_eq_natAbs hs
      have hlt : value.natAbs < 2 ^ shamt.toNat := by
        refine lt_of_lt_of_le hv512 (Nat.pow_le_pow_right (by norm_num) ?_)
        rw [htn]
        calc 512 ≤ 2 ^ (63 * 1) := by norm_num
          _ ≤ shamt.natAbs := hge
      rw [Nat.div_eq_of_lt hlt]
      norm_num
    · rw [if_neg hbig]
      have hnd : rb_numdigits shamt ≤ 1 := by omega
      have hsm : shamt.natAbs < 2 ^ (SHIFT * 1) := (rb_numdigits_le_iff le_rfl).1 hnd
      have hdig0 : rb_digit shamt 0 = shamt.natAbs := by
        unfold rb_digit digitN
        rw [Nat.mul_zero, pow_zero, Nat.div_one, Nat.mod_eq_of_lt (by
          rw [show SHIFT * 1 = SHIFT by ring] at hsm
          exact hsm)]
      have htn : shamt.toNat = shamt.natAbs := toNat_eq_natAbs hs
      rw [hdig0, htn]
      by_cases hws : rb_numdigits value ≤ shamt.natAbs / SHIFT
      · rw [if_pos hws]
        have h1 : value.natAbs < 2 ^ (SHIFT * (shamt.natAbs / SHIFT)) :=
          lt_of_lt_of_le (natAbs_lt_shift_numdigits value)
            (Nat.pow_le_pow_right (by norm_num) (Nat.mul_le_mul_left _ hws))
        have h2 : value.natAbs < 2 ^ shamt.natAbs :=
          lt_of_lt_of_le h1 (Nat.pow_le_pow_right (by norm_num)
            (by rw [Nat.mul_comm]; exact Nat.div_mul_le_self _ _))
        rw [Nat.div_eq_of_lt h2]
        norm_num
      · rw [if_neg hws]

/-- `_rbigint_rshift_maskoff` (bits.py lines 131-168): `(value >> shamt) mod
2^masklen` in big form.  The digit loop (lines 148-155) assembles the low
`retsize` digits of `|value| >> shamt`; the top digit is masked exactly as in
`_rbigint_maskoff_high`. -/
def _rbigint_rshift_maskoff (value : Int) (shamt : Nat) (masklen : Nat) : Int :=
  if value = 0 then value
  else if shamt = 0 then _rbigint_maskoff_high value masklen
  else
    let wordshift := shamt / SHIFT
    let oldsize := rb_numdigits value
    if oldsize ≤ wordshift then 0  -- NULLRBIGINT
    else
      let newsize := oldsize - wordshift
      let masksize := (masklen - 1) / SHIFT + 1
      let retsize := min newsize masksize
      -- digit loop: the low `retsize` digits of `|value| >> shamt`
      let ret : Nat := value.natAbs / 2 ^ shamt % 2 ^ (SHIFT * retsize)
      if masksize ≤ retsize then
        let maskbit := masklen % SHIFT
        if maskbit ≠ 0 then
          let lastword := retsize - 1  -- `i - 1` after the loop
          let lastdigit := digitN ret lastword
          let mask := 2 ^ maskbit - 1
          if mask ≤ lastdigit then ((setdigitN ret lastword (lastdigit &&& mask) : Nat) : Int)
          else (ret : Int)
        else (ret : Int)
      else (ret : Int)

theorem _rbigint_rshift_maskoff_eq (value : Int) (shamt masklen : Nat)
    (hv : 0 ≤ value) (hm : 1 ≤ masklen) :
    _rbigint_rshift_maskoff value shamt masklen
      = ((value.natAbs / 2 ^ shamt % 2 ^ masklen : Nat) : Int) := by
  unfold _rbigint_rshift_maskoff
  have hS : SHIFT = 63 := rfl
  by_cases h0 : value = 0
  · rw [if_pos h0, h0]
    simp
  rw [if_neg h0]
  by_cases hsh0 : shamt = 0
  · rw [if_pos hsh0, _rbigint_maskoff_high_eq value masklen hv hm,
      emod_two_pow_eq_natAbs value masklen hv, hsh0]
    norm_num
  rw [if_neg hsh0]
  by_cases hws : rb_numdigits value ≤ shamt / SHIFT
  · rw [if_pos hws]
    have h1 : value.natAbs < 2 ^ (SHIFT * (shamt / SHIFT)) :=
      lt_of_lt_of_le (natAbs_lt_shift_numdigits value)
        (Nat.pow_le_pow_right (by norm_num) (Nat.mul_le_mul_left _ hws))
    have h2 : value.natAbs < 2 ^ shamt :=
      lt_of_lt_of_le h1 (Nat.pow_le_pow_right (by norm_num)
        (by rw [Nat.mul_comm]; exact Nat.div_mul_le_self _ _))
    rw [Nat.div_eq_of_lt h2]
    norm_num
  rw [if_neg hws]
  set m : Nat := value.natAbs / 2 ^ shamt with hmdef
  have hmlt : m < 2 ^ (SHIFT * (rb_numdigits value - shamt / SHIFT)) := by
    rw [hmdef]
    apply Nat.div_lt_of_lt_mul
    calc value.natAbs < 2 ^ (SHIFT * rb_numdigits value) := natAbs_lt_shift_numdigits value
      _ ≤ 2 ^ shamt * 2 ^ (SHIFT * (rb_numdigits value - shamt / SHIFT)) := by
          rw [← pow_add]
          refine Nat.pow_le_pow_right (by norm_num) ?_
          have h1 : SHIFT * (shamt / SHIFT) ≤ shamt := by
            rw [Nat.mul_comm]
            exact Nat.div_mul_le_self _ _
          push_neg at hws
          have h2 : shamt / SHIFT < rb_numdigits value := hws
          rw [hS] at *
          omega
  by_cases hmsk : (masklen - 1) / SHIFT + 1 ≤ min (rb_numdigits value - shamt / SHIFT) ((masklen - 1) / SHIFT + 1)
  · rw [if_pos hmsk]
    have hretsize : min (rb_numdigits value - shamt / SHIFT) ((masklen - 1) / SHIFT + 1)
        = (masklen - 1) / SHIFT + 1 :=
      le_antisymm (min_le_right _ _) hmsk
    rw [hretsize]
    by_cases hmb : masklen % SHIFT ≠ 0
    · rw [if_pos hmb]
      rw [Nat.add_sub_cancel]
      rw [← trunc_mask_case_ne m masklen hm hmb]
      by_cases hge : 2 ^ (masklen % SHIFT) - 1 ≤
          digitN (m % 2 ^ (SHIFT * ((masklen - 1) / SHIFT + 1))) ((masklen - 1) / SHIFT)
      · rw [if_pos hge, if_pos hge]
      · rw [if_neg hge, if_neg hge]
    · rw [if_neg hmb]
      push_neg at hmb
      rw [trunc_mask_case_eq m masklen hm hmb]
  · rw [if_neg hmsk]
    have hnewlt : min (rb_numdigits value - shamt / SHIFT) ((masklen - 1) / SHIFT + 1)
        = rb_numdigits value - shamt / SHIFT := by
      rcases Nat.le_total (rb_numdigits value - shamt / SHIFT) ((masklen - 1) / SHIFT + 1) with h | h
      · exact min_eq_left h
      · omega
    have hsmall : rb_numdigits value - shamt / SHIFT ≤ (masklen - 1) / SHIFT := by
      by_contra hc
      push_neg at hc
      exact hmsk (by omega)
    have hmlt2 : m < 2 ^ masklen := by
      refine lt_of_lt_of_le hmlt (Nat.pow_le_pow_right (by norm_num) ?_)
      calc SHIFT * (rb_numdigits value - shamt / SHIFT) ≤ SHIFT * ((masklen - 1) / SHIFT) :=
            Nat.mul_le_mul_left _ hsmall
        _ ≤ masklen := by
            rw [hS]
            omega
    rw [hnewlt, Nat.mod_eq_of_lt (lt_of_lt_of_le hmlt (le_refl _)), Nat.mod_eq_of_lt hmlt2]

/-- `_rbigint_rshift_maskoff_retint` (bits.py lines 172-193): like
`_rbigint_rshift_maskoff` for `masklen ≤ SHIFT`, assembling at most two
digits into a machine integer before applying `get_int_mask(masklen)`. -/
def _rbigint_rshift_maskoff_retint (value : Int) (shamt : Nat) (masklen : Nat) : Int :=
  if value = 0 then 0
  else if shamt = 0 then ((rb_digit value 0 &&& (2 ^ masklen - 1) : Nat) : Int)
  else
    let wordshift := shamt / SHIFT
    let oldsize := rb_numdigits value
    if oldsize ≤ wordshift then 0
    else
      let newsize := oldsize - wordshift
      let loshift := shamt - wordshift * SHIFT
      let hishift := SHIFT - loshift
      let ret0 := rb_digit value wordshift >>> loshift
      let ret1 := if 1 < newsize then ret0 ||| (rb_digit value (wordshift + 1) <<< hishift)
                  else ret0
      ((ret1 &&& (2 ^ masklen - 1) : Nat) : Int)

/-- A window of at most `SHIFT` bits starting at bit `SHIFT*ws + lo` is
covered by digits `ws` and `ws+1`; this is the assembly performed by
`_rbigint_rshift_maskoff_retint`. -/
theorem two_digit_window (n ws lo L : Nat) (hlo : lo < SHIFT) (hL : L ≤ SHIFT) :
    ((digitN n ws >>> lo) ||| (digitN n (ws + 1) <<< (SHIFT - lo))) % 2 ^ L
      = n / 2 ^ (SHIFT * ws + lo) % 2 ^ L := by
  apply Nat.eq_of_testBit_eq
  intro j
  rw [Nat.testBit_mod_two_pow, Nat.testBit_mod_two_pow]
  by_cases hj : j < L
  · simp only [decide_eq_true (show j < L from hj), Bool.true_and]
    rw [Nat.testBit_lor, Nat.testBit_shiftRight, Nat.testBit_shiftLeft,
      testBit_digitN, testBit_digitN,
      show n / 2 ^ (SHIFT * ws + lo) = n >>> (SHIFT * ws + lo) by
        rw [Nat.shiftRight_eq_div_pow],
      Nat.testBit_shiftRight]
    have hS : SHIFT = 63 := rfl
    by_cases hcase : lo + j < SHIFT
    · have h2 : ¬ (SHIFT - lo ≤ j) := by omega
      simp only [decide_eq_true (show lo + j < SHIFT from hcase), Bool.true_and,
        decide_eq_false h2, Bool.false_and, Bool.or_false]
      congr 1
      omega
    · have h2 : SHIFT - lo ≤ j := by omega
      have h3 : j - (SHIFT - lo) < SHIFT := by omega
      simp only [decide_eq_false hcase, Bool.false_and,
        decide_eq_true (show SHIFT - lo ≤ j from h2),
        decide_eq_true (show j - (SHIFT - lo) < SHIFT from h3), Bool.true_and,
        Bool.false_or]
      congr 1
      rw [Nat.mul_add, Nat.mul_one]
      omega
  · simp [hj]

theorem _rbigint_rshift_maskoff_retint_eq (value : Int) (shamt masklen : Nat)
    (hv : 0 ≤ value) (hml : masklen ≤ SHIFT) :
    _rbigint_rshift_maskoff_retint value shamt masklen
      = ((value.natAbs / 2 ^ shamt % 2 ^ masklen : Nat) : Int) := by
  unfold _rbigint_rshift_maskoff_retint
  have hS : SHIFT = 63 := rfl
  by_cases h0 : value = 0
  · rw [if_pos h0, h0]
    simp
  rw [if_neg h0]
  by_cases hsh0 : shamt = 0
  · rw [if_pos hsh0, hsh0]
    unfold rb_digit
    rw [Nat.and_pow_two_sub_one_eq_mod]
    unfold digitN
    rw [Nat.mul_zero, pow_zero, Nat.div_one,
      Nat.mod_mod_of_dvd _ (pow_dvd_pow 2 hml)]
  rw [if_neg hsh0]
  by_cases hws : rb_numdigits value ≤ shamt / SHIFT
  · rw [if_pos hws]
    have h1 : value.natAbs < 2 ^ (SHIFT * (shamt / SHIFT)) :=
      lt_of_lt_of_le (natAbs_lt_shift_numdigits value)
        (Nat.pow_le_pow_right (by norm_num) (Nat.mul_le_mul_left _ hws))
    have h2 : value.natAbs < 2 ^ shamt :=
      lt_of_lt_of_le h1 (Nat.pow_le_pow_right (by norm_num)
        (by rw [Nat.mul_comm]; exact Nat.div_mul_le_self _ _))
    rw [Nat.div_eq_of_lt h2]
    norm_num
  rw [if_neg hws]
  push_neg at hws
  have hlo : shamt - shamt / SHIFT * SHIFT < SHIFT := by
    rw [hS]
    omega
  have hshamt : SHIFT * (shamt / SHIFT) + (shamt - shamt / SHIFT * SHIFT) = shamt := by
    rw [hS]
    omega
  have hcore : ∀ r : Nat,
      r = (rb_digit value (shamt / SHIFT) >>> (shamt - shamt / SHIFT * SHIFT)) |||
          (rb_digit value (shamt / SHIFT + 1) <<< (SHIFT - (shamt - shamt / SHIFT * SHIFT))) →
      ((r &&& (2 ^ masklen - 1) : Nat) : Int)
        = ((value.natAbs / 2 ^ shamt % 2 ^ masklen : Nat) : Int) := by
    intro r hr
    rw [hr, Nat.and_pow_two_sub_one_eq_mod]
    unfold rb_digit
    rw [two_digit_window value.natAbs (shamt / SHIFT) (shamt - shamt / SHIFT * SHIFT)
      masklen hlo hml, hshamt]
  show (((if 1 < rb_numdigits value - shamt / SHIFT then
      (rb_digit value (shamt / SHIFT) >>> (shamt - shamt / SHIFT * SHIFT)) |||
        (rb_digit value (shamt / SHIFT + 1) <<< (SHIFT - (shamt - shamt / SHIFT * SHIFT)))
    else rb_digit value (shamt / SHIFT) >>> (shamt - shamt / SHIFT * SHIFT)) &&&
      (2 ^ masklen - 1) : Nat) : Int) = ((value.natAbs / 2 ^ shamt % 2 ^ masklen : Nat) : Int)
  by_cases hnew : 1 < rb_numdigits value - shamt / SHIFT
  · rw [if_pos hnew]
    exact hcore _ rfl
  · rw [if_neg hnew]
    have hnd : rb_numdigits value ≤ shamt / SHIFT + 1 := by omega
    have hdz : rb_digit value (shamt / SHIFT + 1) = 0 := by
      unfold rb_digit
      exact digitN_eq_zero_of_lt (lt_of_lt_of_le (natAbs_lt_shift_numdigits value)
        (Nat.pow_le_pow_right (by norm_num) (Nat.mul_le_mul_left _ hnd)))
    refine hcore _ ?_
    rw [hdz]
    simp

/-- `_rbigint_getidx` (bits.py lines 196-202): bit `index` of a big integer.
Note the guard is `wordpos > value.numdigits()`: when `wordpos` equals
`numdigits` the digit accessor reads past the significant digits, which the
data model (§3) defines as zero. -/
def _rbigint_getidx (value : Int) (index : Nat) : Int :=
  let wordpos := index / SHIFT
  if rb_numdigits value < wordpos then 0  -- `if wordpos > value.numdigits()`
  else
    let bitpos := index - wordpos * SHIFT
    (((rb_digit value wordpos >>> bitpos) &&& 1 : Nat) : Int)

theorem _rbigint_getidx_eq (value : Int) (index : Nat) :
    _rbigint_getidx value index = ((value.natAbs / 2 ^ index % 2 : Nat) : Int) := by
  unfold _rbigint_getidx
  have hS : SHIFT = 63 := rfl
  by_cases hout : rb_numdigits value < index / SHIFT
  · rw [if_pos hout]
    have h1 : value.natAbs < 2 ^ (SHIFT * (index / SHIFT)) :=
      lt_of_lt_of_le (natAbs_lt_shift_numdigits value)
        (Nat.pow_le_pow_right (by norm_num) (Nat.mul_le_mul_left _ (by omega)))
    have h2 : value.natAbs < 2 ^ index :=
      lt_of_lt_of_le h1 (Nat.pow_le_pow_right (by norm_num)
        (by rw [Nat.mul_comm]; exact Nat.div_mul_le_self _ _))
    rw [Nat.div_eq_of_lt h2]
    norm_num
  · rw [if_neg hout]
    refine Int.natCast_inj.mpr ?_
    have hbp : index - index / SHIFT * SHIFT < SHIFT := by
      rw [hS]
      omega
    have hidx : SHIFT * (index / SHIFT) + (index - index / SHIFT * SHIFT) = index := by
      rw [hS]
      omega
    rw [Nat.and_one_is_mod]
    unfold rb_digit digitN
    rw [Nat.shiftRight_eq_div_pow]
    have hsum : (index - index / SHIFT * SHIFT) + (SHIFT - (index - index / SHIFT * SHIFT))
        = SHIFT := by omega
    calc value.natAbs / 2 ^ (SHIFT * (index / SHIFT)) % 2 ^ SHIFT
          / 2 ^ (index - index / SHIFT * SHIFT) % 2
        = value.natAbs / 2 ^ (SHIFT * (index / SHIFT))
            % 2 ^ ((index - index / SHIFT * SHIFT) + (SHIFT - (index - index / SHIFT * SHIFT)))
            / 2 ^ (index - index / SHIFT * SHIFT) % 2 := by rw [hsum]
      _ = value.natAbs / 2 ^ (SHIFT * (index / SHIFT)) / 2 ^ (index - index / SHIFT * SHIFT)
            % 2 ^ (SHIFT - (index - index / SHIFT * SHIFT)) % 2 := by
          rw [mod_pow_div_pow]
      _ = value.natAbs / 2 ^ (SHIFT * (index / SHIFT)) / 2 ^ (index - index / SHIFT * SHIFT)
            % 2 := by
          refine Nat.mod_mod_of_dvd _ ?_
          have h1 : 1 ≤ SHIFT - (index - index / SHIFT * SHIFT) := by omega
          calc (2 : Nat) = 2 ^ 1 := by norm_num
            _ ∣ 2 ^ (SHIFT - (index - index / SHIFT * SHIFT)) := pow_dvd_pow 2 h1
      _ = value.natAbs / 2 ^ index % 2 := by
          rw [Nat.div_div_eq_div_mul, ← pow_add, hidx]

/-- Disjoint bitwise segments: a value below `2^k` shares no bits with a
multiple of `2^k`. -/
theorem and_mul_pow_eq_zero {x k : Nat} (y : Nat) (hx : x < 2 ^ k) :
    x &&& y * 2 ^ k = 0 := by
  apply Nat.eq_of_testBit_eq
  intro j
  rw [Nat.testBit_land, Nat.zero_testBit,
    show y * 2 ^ k = 2 ^ k * y by ring, Nat.testBit_mul_pow_two]
  by_cases hj : j < k
  · simp [Nat.not_le_of_lt hj]
  · have : x < 2 ^ j :=
      lt_of_lt_of_le hx (Nat.pow_le_pow_right (by norm_num) (Nat.le_of_not_lt hj))
    simp [Nat.testBit_lt_two_pow this]

/-- Bitwise or of disjoint values is addition. -/
theorem lor_eq_add : ∀ {x : Nat}, ∀ {y : Nat}, x &&& y = 0 → x ||| y = x + y := by
  intro x
  induction x using Nat.strong_induction_on with
  | _ x ih =>
    intro y h
    by_cases hx : x = 0
    · subst hx
      simp
    · have hdiv : x / 2 ||| y / 2 = x / 2 + y / 2 := by
        refine ih (x / 2) (by omega) ?_
        rw [← Nat.and_div_two, h]
      have hr : (x ||| y) = 2 * ((x ||| y) / 2) + (x ||| y) % 2 := by omega
      have hmod : (x ||| y) % 2 = x % 2 + y % 2 := by
        have hand : (x &&& y) % 2 = 0 := by rw [h]
        have h1 := Nat.and_mod_two_eq_one (a := x) (b := y)
        have h2 := Nat.or_mod_two_eq_one (a := x) (b := y)
        by_cases ho : (x ||| y) % 2 = 1
        · rcases h2.mp ho with hc | hc
          · have hy0 : y % 2 = 0 := by
              by_contra hy1
              have hy2 : y % 2 = 1 := by omega
              have := h1.mpr ⟨hc, hy2⟩
              omega
            omega
          · have hx0 : x % 2 = 0 := by
              by_contra hx1
              have hx2 : x % 2 = 1 := by omega
              have := h1.mpr ⟨hx2, hc⟩
              omega
            omega
        · have hx0 := Nat.mod_two_eq_zero_or_one x
          have hy0 := Nat.mod_two_eq_zero_or_one y
          rcases hx0 with hx0 | hx0
          · rcases hy0 with hy0 | hy0
            · omega
            · exact absurd (h2.mpr (Or.inr hy0)) ho
          · exact absurd (h2.mpr (Or.inl hx0)) ho
      rw [hr, Nat.or_div_two, hdiv, hmod]
      omega

/-- Merging the kept low bits of a digit with the written low part of the
slice content reconstitutes the digit, when the content is the slice of the
value itself (`(digit & mask(bitstart)) | (val1 << bitstart)` in the setitem
helpers). -/
theorem word_merge_eq (n ws bs L : Nat) (hbs : bs < SHIFT) (hL : SHIFT - bs ≤ L) :
    (digitN n ws &&& (2 ^ bs - 1)) |||
      ((n / 2 ^ (SHIFT * ws + bs) % 2 ^ L &&& (2 ^ (SHIFT - bs) - 1)) <<< bs)
    = digitN n ws := by
  rw [Nat.and_pow_two_sub_one_eq_mod, Nat.and_pow_two_sub_one_eq_mod,
    Nat.mod_mod_of_dvd _ (pow_dvd_pow 2 hL), Nat.shiftLeft_eq]
  have h1 : n / 2 ^ (SHIFT * ws + bs) % 2 ^ (SHIFT - bs) = digitN n ws / 2 ^ bs := by
    unfold digitN
    rw [show (2 : Nat) ^ SHIFT = 2 ^ (bs + (SHIFT - bs)) by
        congr 1
        omega,
      mod_pow_div_pow, Nat.div_div_eq_div_mul, ← pow_add]
  rw [h1, lor_eq_add (and_mul_pow_eq_zero _ (Nat.mod_lt _ (Nat.pos_pow_of_pos _ (by norm_num)))),
    Nat.mod_add_div']

theorem ldiff_mask (m k : Nat) : Nat.ldiff (2 ^ k - 1) m = 2 ^ k - 1 - m % 2 ^ k := by
  have hdisj : Nat.ldiff (2 ^ k - 1) m &&& (m % 2 ^ k) = 0 := by
    apply Nat.eq_of_testBit_eq
    intro j
    rw [Nat.testBit_land, Nat.testBit_ldiff, Nat.testBit_two_pow_sub_one,
      Nat.testBit_mod_two_pow, Nat.zero_testBit]
    by_cases hj : j < k <;> by_cases hm : m.testBit j <;> simp [hj, hm]
  have hor : Nat.ldiff (2 ^ k - 1) m ||| (m % 2 ^ k) = 2 ^ k - 1 := by
    apply Nat.eq_of_testBit_eq
    intro j
    rw [Nat.testBit_lor, Nat.testBit_ldiff, Nat.testBit_two_pow_sub_one,
      Nat.testBit_mod_two_pow]
    by_cases hj : j < k <;> by_cases hm : m.testBit j <;> simp [hj, hm]
  have hadd := lor_eq_add hdisj
  rw [hadd] at hor
  have hle : m % 2 ^ k ≤ 2 ^ k - 1 := by
    have := Nat.mod_lt m (show 0 < 2 ^ k from Nat.pos_pow_of_pos _ (by norm_num))
    omega
  omega

/-- ANDing an integer with the `k`-bit all-ones mask reduces it modulo
`2^k`; this is how the source wraps possibly-negative intermediates. -/
theorem land_mask_right (z : Int) (k : Nat) :
    Int.land z ((2 : Int) ^ k - 1) = z % (2 : Int) ^ k := by
  have hmask : ((2 : Int) ^ k - 1) = ((2 ^ k - 1 : Nat) : Int) := by
    have h1 : (1 : Nat) ≤ 2 ^ k := Nat.one_le_two_pow
    push_cast [h1]
    ring
  rw [hmask]
  cases z with
  | ofNat m =>
    show ((m &&& (2 ^ k - 1) : Nat) : Int) = _
    rw [Nat.and_pow_two_sub_one_eq_mod]
    norm_cast
  | negSucc m =>
    show ((Nat.ldiff (2 ^ k - 1) m : Nat) : Int) = _
    rw [ldiff_mask]
    have hP : (0 : Int) < (2 : Int) ^ k := by positivity
    have hcast : ((2 ^ k - 1 - m % 2 ^ k : Nat) : Int)
        = (2 : Int) ^ k - 1 - ((m % 2 ^ k : Nat) : Int) := by
      have h1 : (1 : Nat) ≤ 2 ^ k := Nat.one_le_two_pow
      have h2 : m % 2 ^ k ≤ 2 ^ k - 1 := by
        have := Nat.mod_lt m (show 0 < 2 ^ k from Nat.pos_pow_of_pos _ (by norm_num))
        omega
      push_cast [h1, h2]
      ring
    rw [hcast]
    have hdecomp : (Int.negSucc m)
        = ((2 : Int) ^ k - 1 - ((m % 2 ^ k : Nat) : Int))
          + (2 : Int) ^ k * (-(((m / 2 ^ k : Nat) : Int)) - 1) := by
      rw [Int.negSucc_eq]
      have hdm : ((m : Int)) = ((m % 2 ^ k : Nat) : Int)
          + ((2 : Int) ^ k) * ((m / 2 ^ k : Nat) : Int) := by
        norm_cast
        exact (Nat.mod_add_div m (2 ^ k)).symm
      linear_combination -hdm
    rw [hdecomp, Int.add_mul_emod_self_left, Int.emod_eq_of_lt]
    · have : (0 : Int) ≤ ((m % 2 ^ k : Nat) : Int) := by positivity
      have hlt : ((m % 2 ^ k : Nat) : Int) < (2 : Int) ^ k := by
        have h2 := Nat.mod_lt m (show 0 < 2 ^ k from Nat.pos_pow_of_pos _ (by norm_num))
        exact_mod_cast h2
      omega
    · have : (0 : Int) ≤ ((m % 2 ^ k : Nat) : Int) := by positivity
      omega

theorem int_land_comm (a b : Int) : Int.land a b = Int.land b a := by
  cases a with
  | ofNat m =>
    cases b with
    | ofNat n =>
      show ((m &&& n : Nat) : Int) = ((n &&& m : Nat) : Int)
      rw [Nat.and_comm]
    | negSucc n => rfl
  | negSucc m =>
    cases b with
    | ofNat n => rfl
    | negSucc n =>
      show Int.negSucc (m ||| n) = Int.negSucc (n ||| m)
      rw [Nat.or_comm]

theorem land_mask_left (z : Int) (k : Nat) :
    Int.land ((2 : Int) ^ k - 1) z = z % (2 : Int) ^ k := by
  rw [int_land_comm]
  exact land_mask_right z k

/-- `setitem_long_int_helper` body (bits.py lines 410-497), for a
non-negative machine-integer `other`: overwrite bits `[start, stop)` of
`value` with `other`, reading each digit-array construction at its value. -/
def setitem_long_int_body (value : Int) (other : Nat) (start stop : Nat) : Int :=
  let n := value.natAbs
  let vsize := rb_numdigits value
  let wordstart := start / SHIFT
  let bitstart := start - wordstart * SHIFT
  if vsize ≤ wordstart then  -- `if wordstart >= vsize`, concatenate
    if other = 0 then value
    else if bitstart = 0 then
      -- `value._digits[:vsize] + [NULLDIGIT]*(wordstart-vsize) + [other]`
      ((n + other * 2 ^ (SHIFT * wordstart) : Nat) : Int)
    else
      let lo := SHIFT - bitstart
      let val1 := other &&& (2 ^ lo - 1)
      if val1 = other then  -- the higher part is zero
        ((n + (val1 <<< bitstart) * 2 ^ (SHIFT * wordstart) : Nat) : Int)
      else
        ((n + (val1 <<< bitstart) * 2 ^ (SHIFT * wordstart)
            + (other >>> lo) * 2 ^ (SHIFT * (wordstart + 1)) : Nat) : Int)
  else
    let wordstop := stop / SHIFT
    let bitstop := stop - wordstop * SHIFT
    if wordstop < vsize then
      let valstop := digitN n wordstop
      let maskstop := 2 ^ bitstop - 1
      if wordstop = wordstart then
        -- `(valstop & ~(maskstop - mask(bitstart))) | (other << bitstart)`
        ((setdigitN n wordstop
          (Nat.ldiff valstop (2 ^ bitstop - 2 ^ bitstart) ||| (other <<< bitstart)) : Nat) : Int)
      else if bitstart = 0 then
        -- `ret[wordstart] = other`, middle words zeroed,
        -- `ret[wordstop] = valstop & ~maskstop`
        ((n % 2 ^ (SHIFT * wordstart) + other * 2 ^ (SHIFT * wordstart)
            + Nat.ldiff valstop maskstop * 2 ^ (SHIFT * wordstop)
            + n / 2 ^ (SHIFT * (wordstop + 1)) * 2 ^ (SHIFT * (wordstop + 1)) : Nat) : Int)
      else
        let lo := SHIFT - bitstart
        let val1 := other &&& (2 ^ lo - 1)
        let word := (digitN n wordstart &&& (2 ^ bitstart - 1)) ||| (val1 <<< bitstart)
        let val2 := other >>> lo
        if wordstart + 1 = wordstop then
          -- `ret[wordstart+1] = val2 | (valstop & ~maskstop)`
          ((n % 2 ^ (SHIFT * wordstart) + word * 2 ^ (SHIFT * wordstart)
              + (val2 ||| Nat.ldiff valstop maskstop) * 2 ^ (SHIFT * wordstop)
              + n / 2 ^ (SHIFT * (wordstop + 1)) * 2 ^ (SHIFT * (wordstop + 1)) : Nat) : Int)
        else
          -- `ret[wordstart+1] = val2`, middle words zeroed,
          -- `ret[wordstop] = valstop & ~maskstop`
          ((n % 2 ^ (SHIFT * wordstart) + word * 2 ^ (SHIFT * wordstart)
              + val2 * 2 ^ (SHIFT * (wordstart + 1))
              + Nat.ldiff valstop maskstop * 2 ^ (SHIFT * wordstop)
              + n / 2 ^ (SHIFT * (wordstop + 1)) * 2 ^ (SHIFT * (wordstop + 1)) : Nat) : Int)
    else
      -- `wordstart < vsize <= wordstop`: highest digits are cleared;
      -- keep digits below `wordstart` plus (at most) two written words
      if bitstart = 0 then
        ((n % 2 ^ (SHIFT * wordstart) + other * 2 ^ (SHIFT * wordstart) : Nat) : Int)
      else
        let lo := SHIFT - bitstart
        let val1 := other &&& (2 ^ lo - 1)
        let word := (digitN n wordstart &&& (2 ^ bitstart - 1)) ||| (val1 <<< bitstart)
        if val1 = other then
          ((n % 2 ^ (SHIFT * wordstart) + word * 2 ^ (SHIFT * wordstart) : Nat) : Int)
        else
          ((n % 2 ^ (SHIFT * wordstart) + word * 2 ^ (SHIFT * wordstart)
              + (other >>> lo) * 2 ^ (SHIFT * (wordstart + 1)) : Nat) : Int)

/-- `setitem_long_long_helper` body (bits.py lines 341-397), for a
non-negative multi-digit `other`: `other` is first left-shifted by `start`
to align, then grafted onto `value` for `[start, stop)`. -/
def setitem_long_long_body (value : Int) (other : Int) (start stop : Nat) : Int :=
  let n := value.natAbs
  let vsize := rb_numdigits value
  let mp := (rb_lshift other start).natAbs  -- `other = other.lshift(start)`
  let wordstart := start / SHIFT
  if vsize ≤ wordstart then  -- `value._digits[:vsize] + other._digits[vsize:]`
    ((n + mp / 2 ^ (SHIFT * vsize) * 2 ^ (SHIFT * vsize) : Nat) : Int)
  else
    let wordstop := stop / SHIFT
    if wordstop < vsize then
      let bitstart := start - wordstart * SHIFT
      -- `tmpstart = other.digit(wordstart) | (ret.digit(wordstart) & mask(bitstart))`
      let tmpstart := digitN mp wordstart ||| (digitN n wordstart &&& (2 ^ bitstart - 1))
      let bitstop := stop - wordstop * SHIFT
      if bitstop ≠ 0 then
        -- middle words copied from the shifted source, then
        -- `ret[wordstop] = other.digit(wordstop) | (ret.digit(wordstop) & ~mask(bitstop))`
        ((n % 2 ^ (SHIFT * wordstart) + tmpstart * 2 ^ (SHIFT * wordstart)
            + mp % 2 ^ (SHIFT * wordstop) / 2 ^ (SHIFT * (wordstart + 1))
              * 2 ^ (SHIFT * (wordstart + 1))
            + (digitN mp wordstop ||| Nat.ldiff (digitN n wordstop) (2 ^ bitstop - 1))
              * 2 ^ (SHIFT * wordstop)
            + n / 2 ^ (SHIFT * (wordstop + 1)) * 2 ^ (SHIFT * (wordstop + 1)) : Nat) : Int)
      else
        ((n % 2 ^ (SHIFT * wordstart) + tmpstart * 2 ^ (SHIFT * wordstart)
            + mp % 2 ^ (SHIFT * wordstop) / 2 ^ (SHIFT * (wordstart + 1))
              * 2 ^ (SHIFT * (wordstart + 1))
            + n / 2 ^ (SHIFT * wordstop) * 2 ^ (SHIFT * wordstop) : Nat) : Int)
    else
      -- `wordstart < vsize <= wordstop`:
      -- `value._digits[:wordstart] + other._digits[wordstart:osize]`
      let bitstart := start - wordstart * SHIFT
      if bitstart ≠ 0 then
        -- merge `value.digit(wordstart) & mask(bitstart)` into the start digit
        ((n % 2 ^ (SHIFT * wordstart)
            + ((digitN n wordstart &&& (2 ^ bitstart - 1)) ||| digitN mp wordstart)
              * 2 ^ (SHIFT * wordstart)
            + mp / 2 ^ (SHIFT * (wordstart + 1)) * 2 ^ (SHIFT * (wordstart + 1)) : Nat) : Int)
      else
        ((n % 2 ^ (SHIFT * wordstart)
            + mp / 2 ^ (SHIFT * wordstart) * 2 ^ (SHIFT * wordstart) : Nat) : Int)

/-- `setitem_long_int_helper` (bits.py lines 399-499): negative sources are
first reduced to the slice width (delegating wide negatives through the big
path), then the body runs on a non-negative machine word. -/
def setitem_long_int_helper (value : Int) (other : Int) (start stop : Nat) : Int :=
  if other < 0 then
    let slice_nbits := stop - start
    if slice_nbits < SHIFT then
      -- `other &= get_int_mask(slice_nbits)`
      setitem_long_int_body value (other % (2 : Int) ^ slice_nbits).toNat start stop
    else
      -- `tmp = get_long_mask(slice_nbits).int_and_(other)`, delegate to the
      -- long helper, whose `numdigits <= 1` fast path returns here
      let tmp := Int.land (get_long_mask slice_nbits) other
      if rb_numdigits tmp ≤ 1 then setitem_long_int_body value (rb_digit tmp 0) start stop
      else setitem_long_long_body value tmp start stop
  else setitem_long_int_body value other.toNat start stop

/-- `setitem_long_long_helper` (bits.py lines 330-397): single-digit sources
take the machine-word path; negative sources are reduced to the slice width
first. -/
def setitem_long_long_helper (value : Int) (other : Int) (start stop : Nat) : Int :=
  if rb_numdigits other ≤ 1 then
    setitem_long_int_helper value ((rb_digit other 0 : Nat) : Int) start stop
  else if other < 0 then
    let other2 := Int.land other (get_long_mask (stop - start))
    if rb_numdigits other2 = 1 then
      setitem_long_int_helper value ((rb_digit other2 0 : Nat) : Int) start stop
    else setitem_long_long_body value other2 start stop
  else setitem_long_long_body value other start stop

/-- Dividing a digit by `2^t` reads the value bits from `SHIFT*w + t` up to
the end of the digit. -/
theorem digitN_div (n w t : Nat) (ht : t ≤ SHIFT) :
    digitN n w / 2 ^ t = n / 2 ^ (SHIFT * w + t) % 2 ^ (SHIFT - t) := by
  unfold digitN
  rw [show (2 : Nat) ^ SHIFT = 2 ^ (t + (SHIFT - t)) by
      congr 1
      omega,
    mod_pow_div_pow, Nat.div_div_eq_div_mul, ← pow_add]

/-- Gluing the kept low bits and a fresh digit recomposes a truncation one
digit higher. -/
theorem low_digit_recompose (n w : Nat) :
    n % 2 ^ (SHIFT * w) + digitN n w * 2 ^ (SHIFT * w) = n % 2 ^ (SHIFT * (w + 1)) := by
  unfold digitN
  rw [show SHIFT * (w + 1) = SHIFT * w + SHIFT by ring, mod_pow_split]

/-- The cleared-top stop digit combined with the untouched digits above it
carries exactly the value bits from `SHIFT*w + t` upwards. -/
theorem high_recompose (n w t : Nat) (ht : t ≤ SHIFT) :
    Nat.ldiff (digitN n w) (2 ^ t - 1) * 2 ^ (SHIFT * w)
      + n / 2 ^ (SHIFT * (w + 1)) * 2 ^ (SHIFT * (w + 1))
    = n / 2 ^ (SHIFT * w + t) * 2 ^ (SHIFT * w + t) := by
  rw [ldiff_two_pow_sub_one, digitN_div n w t ht]
  have h1 : n / 2 ^ (SHIFT * (w + 1)) = n / 2 ^ (SHIFT * w + t) / 2 ^ (SHIFT - t) := by
    rw [Nat.div_div_eq_div_mul, ← pow_add]
    congr 2
    have hS : SHIFT = 63 := rfl
    rw [hS] at ht ⊢
    ring_nf
    omega
  rw [h1]
  have h2 : SHIFT * (w + 1) = (SHIFT * w + t) + (SHIFT - t) := by
    have hS : SHIFT = 63 := rfl
    rw [hS] at ht ⊢
    ring_nf
    omega
  rw [h2]
  generalize n / 2 ^ (SHIFT * w + t) = q
  calc q % 2 ^ (SHIFT - t) * 2 ^ t * 2 ^ (SHIFT * w)
        + q / 2 ^ (SHIFT - t) * 2 ^ (SHIFT * w + t + (SHIFT - t))
      = (q % 2 ^ (SHIFT - t) + q / 2 ^ (SHIFT - t) * 2 ^ (SHIFT - t))
          * 2 ^ (SHIFT * w + t) := by
        rw [pow_add, pow_add]
        ring
    _ = q * 2 ^ (SHIFT * w + t) := by rw [Nat.mod_add_div']

/-- Writing back the slice of a value into itself, single-digit case of
`setitem_long_int_helper`. -/
theorem roundtrip_case_single (n a b : Nat) (hab : a < b)
    (hstop : b / SHIFT = a / SHIFT) :
    setdigitN n (b / SHIFT)
      (Nat.ldiff (digitN n (b / SHIFT))
          (2 ^ (b - b / SHIFT * SHIFT) - 2 ^ (a - a / SHIFT * SHIFT)) |||
        ((n / 2 ^ a % 2 ^ (b - a)) <<< (a - a / SHIFT * SHIFT))) = n := by
  have hS : SHIFT = 63 := rfl
  rw [hstop]
  simp only [hS]
  rw [hS] at hstop
  have hbs_lt : a - a / 63 * 63 < 63 := by omega
  have hbstop_gt : a - a / 63 * 63 < b - a / 63 * 63 := by omega
  have hbstop_le : b - a / 63 * 63 ≤ 63 := by omega
  have hL : b - a = (b - a / 63 * 63) - (a - a / 63 * 63) := by omega
  have hoth : n / 2 ^ a % 2 ^ (b - a)
      = digitN n (a / 63) / 2 ^ (a - a / 63 * 63)
          % 2 ^ ((b - a / 63 * 63) - (a - a / 63 * 63)) := by
    have hdd := digitN_div n (a / 63) (a - a / 63 * 63) (by rw [hS]; omega)
    rw [hS] at hdd
    rw [hdd, show 63 * (a / 63) + (a - a / 63 * 63) = a by omega,
      Nat.mod_mod_of_dvd _ (pow_dvd_pow 2 (by omega)), ← hL]
  have hoth_lt : n / 2 ^ a % 2 ^ (b - a)
      < 2 ^ ((b - a / 63 * 63) - (a - a / 63 * 63)) := by
    rw [hoth]
    exact Nat.mod_lt _ (Nat.pos_pow_of_pos _ (by norm_num))
  rw [ldiff_pow_sub_pow (le_of_lt hbstop_gt), Nat.shiftLeft_eq]
  have hmod_lt : digitN n (a / 63) % 2 ^ (a - a / 63 * 63) < 2 ^ (b - a / 63 * 63) :=
    lt_of_lt_of_le (Nat.mod_lt _ (Nat.pos_pow_of_pos _ (by norm_num)))
      (Nat.pow_le_pow_right (by norm_num) (le_of_lt hbstop_gt))
  have hY_lt : n / 2 ^ a % 2 ^ (b - a) * 2 ^ (a - a / 63 * 63)
      < 2 ^ (b - a / 63 * 63) := by
    calc n / 2 ^ a % 2 ^ (b - a) * 2 ^ (a - a / 63 * 63)
        < 2 ^ ((b - a / 63 * 63) - (a - a / 63 * 63)) * 2 ^ (a - a / 63 * 63) :=
          (Nat.mul_lt_mul_right (Nat.pos_pow_of_pos _ (by norm_num))).mpr hoth_lt
      _ = 2 ^ (b - a / 63 * 63) := by
          rw [← pow_add]
          congr 1
          omega
  have hdisj : (digitN n (a / 63) % 2 ^ (a - a / 63 * 63)
      + digitN n (a / 63) / 2 ^ (b - a / 63 * 63) * 2 ^ (b - a / 63 * 63)) &&&
      (n / 2 ^ a % 2 ^ (b - a) * 2 ^ (a - a / 63 * 63)) = 0 := by
    rw [← lor_mul_pow hmod_lt, Nat.and_distrib_right,
      and_mul_pow_eq_zero _ (Nat.mod_lt _ (Nat.pos_pow_of_pos _ (by norm_num))),
      Nat.and_comm _ (n / 2 ^ a % 2 ^ (b - a) * 2 ^ (a - a / 63 * 63)),
      and_mul_pow_eq_zero _ hY_lt]
    simp
  rw [lor_eq_add hdisj]
  have hfinal : digitN n (a / 63) % 2 ^ (a - a / 63 * 63)
      + digitN n (a / 63) / 2 ^ (b - a / 63 * 63) * 2 ^ (b - a / 63 * 63)
      + n / 2 ^ a % 2 ^ (b - a) * 2 ^ (a - a / 63 * 63) = digitN n (a / 63) := by
    rw [hoth]
    have hsplit : digitN n (a / 63) % 2 ^ (b - a / 63 * 63)
        = digitN n (a / 63) % 2 ^ (a - a / 63 * 63)
          + digitN n (a / 63) / 2 ^ (a - a / 63 * 63)
            % 2 ^ ((b - a / 63 * 63) - (a - a / 63 * 63)) * 2 ^ (a - a / 63 * 63) := by
      rw [← mod_pow_split (digitN n (a / 63)) (a - a / 63 * 63)
          ((b - a / 63 * 63) - (a - a / 63 * 63))]
      congr 2
      omega
    have hrec := Nat.mod_add_div' (digitN n (a / 63)) (2 ^ (b - a / 63 * 63))
    omega
  rw [hfinal]
  exact setdigitN_digit_self n (a / 63)

/-- Writing back the slice of a value into itself, digit-aligned spanning
case (`bitstart = 0`, stop word inside the value). -/
theorem roundtrip_case_span0 (n a b : Nat) (hab : a ≤ b)
    (ha0 : a / SHIFT * SHIFT = a) :
    n % 2 ^ (SHIFT * (a / SHIFT)) + (n / 2 ^ a % 2 ^ (b - a)) * 2 ^ (SHIFT * (a / SHIFT))
      + Nat.ldiff (digitN n (b / SHIFT)) (2 ^ (b - b / SHIFT * SHIFT) - 1)
        * 2 ^ (SHIFT * (b / SHIFT))
      + n / 2 ^ (SHIFT * (b / SHIFT + 1)) * 2 ^ (SHIFT * (b / SHIFT + 1)) = n := by
  have hS : SHIFT = 63 := rfl
  have hbstop_le : b - b / SHIFT * SHIFT ≤ SHIFT := by
    rw [hS]
    omega
  have hhigh := high_recompose n (b / SHIFT) (b - b / SHIFT * SHIFT) hbstop_le
  have hb : SHIFT * (b / SHIFT) + (b - b / SHIFT * SHIFT) = b := by
    rw [hS]
    omega
  rw [hb] at hhigh
  have ha : SHIFT * (a / SHIFT) = a := by
    rw [Nat.mul_comm]
    exact ha0
  have hlow : n % 2 ^ (SHIFT * (a / SHIFT))
      + (n / 2 ^ a % 2 ^ (b - a)) * 2 ^ (SHIFT * (a / SHIFT)) = n % 2 ^ b := by
    rw [ha, ← mod_pow_split n a (b - a), Nat.add_sub_cancel' hab]
  have hfin := Nat.mod_add_div' n (2 ^ b)
  omega

/-- The written start digit of the setitem helpers recomposes `digitN n ws`
when the source is the slice of `n` itself (instance of `word_merge_eq`
phrased on the original bit offset `a`). -/
theorem word_merge_at (n a L : Nat) (hL : SHIFT - (a - a / SHIFT * SHIFT) ≤ L) :
    (digitN n (a / SHIFT) &&& (2 ^ (a - a / SHIFT * SHIFT) - 1)) |||
      ((n / 2 ^ a % 2 ^ L &&& (2 ^ (SHIFT - (a - a / SHIFT * SHIFT)) - 1))
        <<< (a - a / SHIFT * SHIFT)) = digitN n (a / SHIFT) := by
  have hS : SHIFT = 63 := rfl
  have hbs : a - a / SHIFT * SHIFT < SHIFT := by
    rw [hS]
    omega
  have hwm := word_merge_eq n (a / SHIFT) (a - a / SHIFT * SHIFT) L hbs hL
  rw [show SHIFT * (a / SHIFT) + (a - a / SHIFT * SHIFT) = a by rw [hS]; omega] at hwm
  exact hwm

/-- The shifted-out upper part of the slice content reads the value bits
from the next digit boundary up to `b`. -/
theorem val2_eq (n a b : Nat) (hab : a ≤ b)
    (hble : SHIFT * (a / SHIFT + 1) ≤ b) :
    (n / 2 ^ a % 2 ^ (b - a)) >>> (SHIFT - (a - a / SHIFT * SHIFT))
      = n / 2 ^ (SHIFT * (a / SHIFT + 1)) % 2 ^ (b - SHIFT * (a / SHIFT + 1)) := by
  have hS : SHIFT = 63 := rfl
  rw [Nat.shiftRight_eq_div_pow]
  have hsplit : b - a = (SHIFT - (a - a / SHIFT * SHIFT))
      + (b - SHIFT * (a / SHIFT + 1)) := by
    rw [hS] at hble ⊢
    omega
  rw [hsplit]
  rw [mod_pow_div_pow]
  rw [Nat.div_div_eq_div_mul]
  rw [show (2 : Nat) ^ a * 2 ^ (SHIFT - (a - a / SHIFT * SHIFT))
      = 2 ^ (SHIFT * (a / SHIFT + 1)) by
    rw [← pow_add]
    congr 1
    rw [hS]
    omega]

/-- Writing back the slice of a value into itself, spanning case with the
stop word adjacent to the start word. -/
theorem roundtrip_case_adjacent (n a b : Nat) (hab : a < b)
    (hws : a / SHIFT + 1 = b / SHIFT) :
    n % 2 ^ (SHIFT * (a / SHIFT))
      + ((digitN n (a / SHIFT) &&& (2 ^ (a - a / SHIFT * SHIFT) - 1)) |||
          ((n / 2 ^ a % 2 ^ (b - a) &&& (2 ^ (SHIFT - (a - a / SHIFT * SHIFT)) - 1))
            <<< (a - a / SHIFT * SHIFT))) * 2 ^ (SHIFT * (a / SHIFT))
      + (((n / 2 ^ a % 2 ^ (b - a)) >>> (SHIFT - (a - a / SHIFT * SHIFT))) |||
          Nat.ldiff (digitN n (b / SHIFT)) (2 ^ (b - b / SHIFT * SHIFT) - 1))
        * 2 ^ (SHIFT * (b / SHIFT))
      + n / 2 ^ (SHIFT * (b / SHIFT + 1)) * 2 ^ (SHIFT * (b / SHIFT + 1)) = n := by
  have hS : SHIFT = 63 := rfl
  have hble : SHIFT * (a / SHIFT + 1) ≤ b := by
    rw [hS] at hws ⊢
    omega
  have hlo_le : SHIFT - (a - a / SHIFT * SHIFT) ≤ b - a := by
    rw [hS] at hble ⊢
    omega
  rw [word_merge_at n a (b - a) hlo_le, val2_eq n a b (le_of_lt hab) hble, hws,
    show b - SHIFT * (b / SHIFT) = b - b / SHIFT * SHIFT by rw [hS]; omega]
  have hv2 : n / 2 ^ (SHIFT * (b / SHIFT)) % 2 ^ (b - b / SHIFT * SHIFT)
      = digitN n (b / SHIFT) % 2 ^ (b - b / SHIFT * SHIFT) := by
    unfold digitN
    rw [Nat.mod_mod_of_dvd _ (pow_dvd_pow 2 (by rw [hS]; omega))]
  rw [hv2, ldiff_two_pow_sub_one,
    lor_mul_pow (Nat.mod_lt _ (Nat.pos_pow_of_pos _ (by norm_num))),
    Nat.mod_add_div']
  rw [low_digit_recompose n (a / SHIFT), hws, low_digit_recompose n (b / SHIFT),
    Nat.mod_add_div']

/-- Writing back the slice of a value into itself, spanning case with at
least one full digit between the start and stop words. -/
theorem roundtrip_case_span (n a b : Nat) (hab : a < b)
    (hble : SHIFT * (a / SHIFT + 1) ≤ b) :
    n % 2 ^ (SHIFT * (a / SHIFT))
      + ((digitN n (a / SHIFT) &&& (2 ^ (a - a / SHIFT * SHIFT) - 1)) |||
          ((n / 2 ^ a % 2 ^ (b - a) &&& (2 ^ (SHIFT - (a - a / SHIFT * SHIFT)) - 1))
            <<< (a - a / SHIFT * SHIFT))) * 2 ^ (SHIFT * (a / SHIFT))
      + ((n / 2 ^ a % 2 ^ (b - a)) >>> (SHIFT - (a - a / SHIFT * SHIFT)))
        * 2 ^ (SHIFT * (a / SHIFT + 1))
      + Nat.ldiff (digitN n (b / SHIFT)) (2 ^ (b - b / SHIFT * SHIFT) - 1)
        * 2 ^ (SHIFT * (b / SHIFT))
      + n / 2 ^ (SHIFT * (b / SHIFT + 1)) * 2 ^ (SHIFT * (b / SHIFT + 1)) = n := by
  have hS : SHIFT = 63 := rfl
  have hlo_le : SHIFT - (a - a / SHIFT * SHIFT) ≤ b - a := by
    rw [hS] at hble ⊢
    omega
  rw [word_merge_at n a (b - a) hlo_le, val2_eq n a b (le_of_lt hab) hble]
  have hhigh := high_recompose n (b / SHIFT) (b - b / SHIFT * SHIFT) (by rw [hS]; omega)
  rw [show SHIFT * (b / SHIFT) + (b - b / SHIFT * SHIFT) = b by rw [hS]; omega] at hhigh
  rw [low_digit_recompose n (a / SHIFT)]
  have hmid : n % 2 ^ (SHIFT * (a / SHIFT + 1))
      + n / 2 ^ (SHIFT * (a / SHIFT + 1)) % 2 ^ (b - SHIFT * (a / SHIFT + 1))
        * 2 ^ (SHIFT * (a / SHIFT + 1)) = n % 2 ^ b := by
    rw [← mod_pow_split n (SHIFT * (a / SHIFT + 1)) (b - SHIFT * (a / SHIFT + 1)),
      show SHIFT * (a / SHIFT + 1) + (b - SHIFT * (a / SHIFT + 1)) = b by omega]
  have hfin := Nat.mod_add_div' n (2 ^ b)
  omega

/-- Writing back the slice of a value into itself, tail case with the write
aligned on a digit boundary and all higher digits cleared. -/
theorem roundtrip_case_tail0 (n a b : Nat) (hab : a ≤ b)
    (ha0 : a - a / SHIFT * SHIFT = 0) (hnb : n < 2 ^ b) :
    n % 2 ^ (SHIFT * (a / SHIFT)) + (n / 2 ^ a % 2 ^ (b - a)) * 2 ^ (SHIFT * (a / SHIFT))
      = n := by
  have hS : SHIFT = 63 := rfl
  have hdiv_lt : n / 2 ^ a < 2 ^ (b - a) := by
    apply Nat.div_lt_of_lt_mul
    rw [← pow_add]
    exact lt_of_lt_of_le hnb (Nat.pow_le_pow_right (by norm_num) (by omega))
  have ha : SHIFT * (a / SHIFT) = a := by
    rw [hS] at ha0 ⊢
    omega
  rw [Nat.mod_eq_of_lt hdiv_lt, ha, Nat.mod_add_div']

/-- Writing back the slice of a value into itself, tail case where the
content fits under the next digit boundary. -/
theorem roundtrip_case_tail_small (n a b : Nat) (hab : a < b)
    (hble : SHIFT * (a / SHIFT + 1) ≤ b) (hnb : n < 2 ^ b)
    (hval1 : n / 2 ^ a % 2 ^ (b - a) &&& (2 ^ (SHIFT - (a - a / SHIFT * SHIFT)) - 1)
      = n / 2 ^ a % 2 ^ (b - a)) :
    n % 2 ^ (SHIFT * (a / SHIFT))
      + ((digitN n (a / SHIFT) &&& (2 ^ (a - a / SHIFT * SHIFT) - 1)) |||
          ((n / 2 ^ a % 2 ^ (b - a) &&& (2 ^ (SHIFT - (a - a / SHIFT * SHIFT)) - 1))
            <<< (a - a / SHIFT * SHIFT))) * 2 ^ (SHIFT * (a / SHIFT)) = n := by
  have hS : SHIFT = 63 := rfl
  have hlo_le : SHIFT - (a - a / SHIFT * SHIFT) ≤ b - a := by
    rw [hS] at hble ⊢
    omega
  rw [word_merge_at n a (b - a) hlo_le, low_digit_recompose n (a / SHIFT)]
  have hoth_eq : n / 2 ^ a % 2 ^ (b - a) = n / 2 ^ a := by
    refine Nat.mod_eq_of_lt ?_
    apply Nat.div_lt_of_lt_mul
    rw [← pow_add]
    exact lt_of_lt_of_le hnb (Nat.pow_le_pow_right (by norm_num) (by omega))
  rw [Nat.and_pow_two_sub_one_eq_mod, hoth_eq] at hval1
  have hsmall : n / 2 ^ a < 2 ^ (SHIFT - (a - a / SHIFT * SHIFT)) := by
    by_contra hc
    push_neg at hc
    have := Nat.mod_lt (n / 2 ^ a)
      (show 0 < 2 ^ (SHIFT - (a - a / SHIFT * SHIFT)) from Nat.pos_pow_of_pos _ (by norm_num))
    omega
  refine Nat.mod_eq_of_lt ?_
  have hn2 : n < 2 ^ (SHIFT - (a - a / SHIFT * SHIFT)) * 2 ^ a :=
    (Nat.div_lt_iff_lt_mul (Nat.pos_pow_of_pos _ (by norm_num))).mp hsmall
  calc n < 2 ^ (SHIFT - (a - a / SHIFT * SHIFT)) * 2 ^ a := hn2
    _ = 2 ^ (SHIFT * (a / SHIFT + 1)) := by
        rw [← pow_add]
        congr 1
        rw [hS]
        omega

/-- Writing back the slice of a value into itself, tail case with a spill
digit above the start word and all higher digits cleared. -/
theorem roundtrip_case_tail_two (n a b : Nat) (hab : a < b)
    (hble : SHIFT * (a / SHIFT + 1) ≤ b) (hnb : n < 2 ^ b) :
    n % 2 ^ (SHIFT * (a / SHIFT))
      + ((digitN n (a / SHIFT) &&& (2 ^ (a - a / SHIFT * SHIFT) - 1)) |||
          ((n / 2 ^ a % 2 ^ (b - a) &&& (2 ^ (SHIFT - (a - a / SHIFT * SHIFT)) - 1))
            <<< (a - a / SHIFT * SHIFT))) * 2 ^ (SHIFT * (a / SHIFT))
      + ((n / 2 ^ a % 2 ^ (b - a)) >>> (SHIFT - (a - a / SHIFT * SHIFT)))
        * 2 ^ (SHIFT * (a / SHIFT + 1)) = n := by
  have hS : SHIFT = 63 := rfl
  have hlo_le : SHIFT - (a - a / SHIFT * SHIFT) ≤ b - a := by
    rw [hS] at hble ⊢
    omega
  rw [word_merge_at n a (b - a) hlo_le, val2_eq n a b (le_of_lt hab) hble,
    low_digit_recompose n (a / SHIFT)]
  have hdivlt : n / 2 ^ (SHIFT * (a / SHIFT + 1)) < 2 ^ (b - SHIFT * (a / SHIFT + 1)) := by
    apply Nat.div_lt_of_lt_mul
    rw [← pow_add]
    exact lt_of_lt_of_le hnb (Nat.pow_le_pow_right (by norm_num) (by omega))
  rw [Nat.mod_eq_of_lt hdivlt, Nat.mod_add_div']

/-- Writing the slice `[a, b)` of a value back into itself through
`setitem_long_int_body` is the identity. -/
theorem setitem_long_int_body_roundtrip (v : Int) (a b : Nat) (hv : 0 ≤ v)
    (hab : a < b) (hlt : v.natAbs / 2 ^ a % 2 ^ (b - a) < 2 ^ SHIFT) :
    setitem_long_int_body v (v.natAbs / 2 ^ a % 2 ^ (b - a)) a b = v := by
  have hS : SHIFT = 63 := rfl
  have habs : ((v.natAbs : Nat) : Int) = v := Int.natAbs_of_nonneg hv
  have hnv : v.natAbs < 2 ^ (SHIFT * rb_numdigits v) := natAbs_lt_shift_numdigits v
  simp only [setitem_long_int_body]
  by_cases hA : rb_numdigits v ≤ a / SHIFT
  · rw [if_pos hA]
    have hna : v.natAbs < 2 ^ a := by
      refine lt_of_lt_of_le hnv (Nat.pow_le_pow_right (by norm_num) ?_)
      calc SHIFT * rb_numdigits v ≤ SHIFT * (a / SHIFT) := Nat.mul_le_mul_left _ hA
        _ ≤ a := by
            rw [Nat.mul_comm]
            exact Nat.div_mul_le_self _ _
    rw [if_pos (show v.natAbs / 2 ^ a % 2 ^ (b - a) = 0 by
      rw [Nat.div_eq_of_lt hna, Nat.zero_mod])]
  · rw [if_neg hA]
    push_neg at hA
    by_cases hB : b / SHIFT < rb_numdigits v
    · rw [if_pos hB]
      by_cases hBA : b / SHIFT = a / SHIFT
      · rw [if_pos hBA]
        exact (Int.natCast_inj.mpr (roundtrip_case_single v.natAbs a b hab hBA)).trans habs
      · rw [if_neg hBA]
        have hws_lt : a / SHIFT < b / SHIFT := by
          have h1 : a / SHIFT ≤ b / SHIFT := Nat.div_le_div_right (le_of_lt hab)
          omega
        by_cases hbs0 : a - a / SHIFT * SHIFT = 0
        · rw [if_pos hbs0]
          refine (Int.natCast_inj.mpr
            (roundtrip_case_span0 v.natAbs a b (le_of_lt hab) ?_)).trans habs
          rw [hS] at hbs0 ⊢
          omega
        · rw [if_neg hbs0]
          by_cases hadj : a / SHIFT + 1 = b / SHIFT
          · rw [if_pos hadj]
            exact (Int.natCast_inj.mpr
              (roundtrip_case_adjacent v.natAbs a b hab hadj)).trans habs
          · rw [if_neg hadj]
            refine (Int.natCast_inj.mpr (roundtrip_case_span v.natAbs a b hab ?_)).trans habs
            rw [hS] at hws_lt ⊢
            omega
    · rw [if_neg hB]
      push_neg at hB
      have hnb : v.natAbs < 2 ^ b := by
        refine lt_of_lt_of_le hnv (Nat.pow_le_pow_right (by norm_num) ?_)
        calc SHIFT * rb_numdigits v ≤ SHIFT * (b / SHIFT) := Nat.mul_le_mul_left _ hB
          _ ≤ b := by
              rw [Nat.mul_comm]
              exact Nat.div_mul_le_self _ _
      have hble : SHIFT * (a / SHIFT + 1) ≤ b := by
        have h1 : a / SHIFT + 1 ≤ b / SHIFT := by omega
        rw [hS] at h1 ⊢
        omega
      by_cases hbs0 : a - a / SHIFT * SHIFT = 0
      · rw [if_pos hbs0]
        exact (Int.natCast_inj.mpr
          (roundtrip_case_tail0 v.natAbs a b (le_of_lt hab) hbs0 hnb)).trans habs
      · rw [if_neg hbs0]
        by_cases hval1 : v.natAbs / 2 ^ a % 2 ^ (b - a) &&&
            (2 ^ (SHIFT - (a - a / SHIFT * SHIFT)) - 1) = v.natAbs / 2 ^ a % 2 ^ (b - a)
        · rw [if_pos hval1]
          exact (Int.natCast_inj.mpr
            (roundtrip_case_tail_small v.natAbs a b hab hble hnb hval1)).trans habs
        · rw [if_neg hval1]
          exact (Int.natCast_inj.mpr
            (roundtrip_case_tail_two v.natAbs a b hab hble hnb)).trans habs

/-- Recombining the low and high parts of a digit split at `t`. -/
theorem or_stop (d t : Nat) :
    (d % 2 ^ t) ||| Nat.ldiff d (2 ^ t - 1) = d := by
  rw [ldiff_two_pow_sub_one,
    lor_mul_pow (Nat.mod_lt _ (Nat.pos_pow_of_pos _ (by norm_num))),
    Nat.mod_add_div']

/-- The start digit of the `start`-aligned slice content is the upper part
of the start digit of the value itself. -/
theorem digit_mp_start (n a b : Nat) (hab : a ≤ b)
    (hble : SHIFT * (a / SHIFT + 1) ≤ b) :
    digitN (n / 2 ^ a % 2 ^ (b - a) * 2 ^ a) (a / SHIFT)
      = digitN n (a / SHIFT) / 2 ^ (a - a / SHIFT * SHIFT)
          * 2 ^ (a - a / SHIFT * SHIFT) := by
  have hS : SHIFT = 63 := rfl
  have hbs : a - a / SHIFT * SHIFT < SHIFT := by
    rw [hS]
    omega
  have ha : SHIFT * (a / SHIFT) + (a - a / SHIFT * SHIFT) = a := by
    rw [hS]
    omega
  unfold digitN
  rw [show n / 2 ^ a % 2 ^ (b - a) * 2 ^ a
      = n / 2 ^ a % 2 ^ (b - a) * 2 ^ (a - a / SHIFT * SHIFT)
          * 2 ^ (SHIFT * (a / SHIFT)) by
    rw [Nat.mul_assoc, ← pow_add]
    congr 2
    omega]
  rw [Nat.mul_div_cancel _ (Nat.pos_pow_of_pos _ (by norm_num)),
    show (2 : Nat) ^ SHIFT
      = 2 ^ (SHIFT - (a - a / SHIFT * SHIFT)) * 2 ^ (a - a / SHIFT * SHIFT) by
    rw [← pow_add]
    congr 1
    omega]
  rw [Nat.mul_mod_mul_right]
  congr 1
  have hlo_le : SHIFT - (a - a / SHIFT * SHIFT) ≤ b - a := by
    rw [hS] at hble ⊢
    omega
  rw [Nat.mod_mod_of_dvd _ (pow_dvd_pow 2 hlo_le)]
  rw [show (2 : Nat) ^ (SHIFT - (a - a / SHIFT * SHIFT)) * 2 ^ (a - a / SHIFT * SHIFT)
      = 2 ^ SHIFT by rw [← pow_add]; congr 1; omega]
  have hdd := digitN_div n (a / SHIFT) (a - a / SHIFT * SHIFT) (le_of_lt hbs)
  unfold digitN at hdd
  rw [hdd, ha]

/-- Writing the slice `[a, b)` of a value back into itself through
`setitem_long_long_body` is the identity. -/
theorem setitem_long_long_body_roundtrip (v : Int) (a b : Nat) (hv : 0 ≤ v)
    (hab : a < b) (hwide : SHIFT < b - a) :
    setitem_long_long_body v ((v.natAbs / 2 ^ a % 2 ^ (b - a) : Nat) : Int) a b = v := by
  have hS : SHIFT = 63 := rfl
  have habs : ((v.natAbs : Nat) : Int) = v := Int.natAbs_of_nonneg hv
  have hnv : v.natAbs < 2 ^ (SHIFT * rb_numdigits v) := natAbs_lt_shift_numdigits v
  simp only [setitem_long_long_body, rb_lshift]
  have hmp : (((v.natAbs / 2 ^ a % 2 ^ (b - a) : Nat) : Int) * 2 ^ a).natAbs
      = v.natAbs / 2 ^ a % 2 ^ (b - a) * 2 ^ a := by
    rw [show ((v.natAbs / 2 ^ a % 2 ^ (b - a) : Nat) : Int) * 2 ^ a
        = ((v.natAbs / 2 ^ a % 2 ^ (b - a) * 2 ^ a : Nat) : Int) by push_cast; ring,
      Int.natAbs_ofNat]
  rw [hmp]
  by_cases hA : rb_numdigits v ≤ a / SHIFT
  · rw [if_pos hA]
    have hna : v.natAbs < 2 ^ a := by
      refine lt_of_lt_of_le hnv (Nat.pow_le_pow_right (by norm_num) ?_)
      calc SHIFT * rb_numdigits v ≤ SHIFT * (a / SHIFT) := Nat.mul_le_mul_left _ hA
        _ ≤ a := by
            rw [Nat.mul_comm]
            exact Nat.div_mul_le_self _ _
    rw [Nat.div_eq_of_lt hna]
    simp [habs]
  · rw [if_neg hA]
    push_neg at hA
    have hws_lt : a / SHIFT + 1 ≤ b / SHIFT := by
      rw [hS] at hwide ⊢
      omega
    have hble : SHIFT * (a / SHIFT + 1) ≤ b := by
      rw [hS] at hwide ⊢
      omega
    have htmp : digitN (v.natAbs / 2 ^ a % 2 ^ (b - a) * 2 ^ a) (a / SHIFT)
          ||| (digitN v.natAbs (a / SHIFT) &&& (2 ^ (a - a / SHIFT * SHIFT) - 1))
        = digitN v.natAbs (a / SHIFT) := by
      rw [digit_mp_start v.natAbs a b (le_of_lt hab) hble,
        Nat.and_pow_two_sub_one_eq_mod,
        mul_pow_lor (Nat.mod_lt _ (Nat.pos_pow_of_pos _ (by norm_num))),
        Nat.mod_add_div']
    have htmp2 : (digitN v.natAbs (a / SHIFT) &&& (2 ^ (a - a / SHIFT * SHIFT) - 1))
          ||| digitN (v.natAbs / 2 ^ a % 2 ^ (b - a) * 2 ^ a) (a / SHIFT)
        = digitN v.natAbs (a / SHIFT) := by
      rw [Nat.lor_comm]
      exact htmp
    have hp2 : (2 : Nat) ^ (SHIFT * (a / SHIFT + 1))
        = 2 ^ a * 2 ^ (SHIFT * (a / SHIFT + 1) - a) := by
      have h : SHIFT * (a / SHIFT + 1) = a + (SHIFT * (a / SHIFT + 1) - a) := by
        rw [hS]
        omega
      conv_lhs => rw [h]
      rw [pow_add]
    have hp5 : a + (SHIFT * (a / SHIFT + 1) - a) = SHIFT * (a / SHIFT + 1) := by
      rw [hS]
      omega
    by_cases hB : b / SHIFT < rb_numdigits v
    · rw [if_pos hB]
      have hp1 : (2 : Nat) ^ (SHIFT * (b / SHIFT))
          = 2 ^ (SHIFT * (b / SHIFT) - a) * 2 ^ a := by
        have h : SHIFT * (b / SHIFT) = (SHIFT * (b / SHIFT) - a) + a := by
          rw [hS] at hws_lt ⊢
          omega
        conv_lhs => rw [h]
        rw [pow_add]
      have hp3 : SHIFT * (b / SHIFT) - a ≤ b - a := by
        rw [hS]
        omega
      have hp4 : SHIFT * (b / SHIFT) - a
          = (SHIFT * (a / SHIFT + 1) - a)
            + (SHIFT * (b / SHIFT) - SHIFT * (a / SHIFT + 1)) := by
        rw [hS] at hws_lt ⊢
        omega
      have hmid : v.natAbs / 2 ^ a % 2 ^ (b - a) * 2 ^ a % 2 ^ (SHIFT * (b / SHIFT))
            / 2 ^ (SHIFT * (a / SHIFT + 1))
          = v.natAbs / 2 ^ (SHIFT * (a / SHIFT + 1))
              % 2 ^ (SHIFT * (b / SHIFT) - SHIFT * (a / SHIFT + 1)) := by
        conv_lhs => rw [hp1, Nat.mul_mod_mul_right, hp2, ← Nat.div_div_eq_div_mul,
          Nat.mul_div_cancel _ (Nat.pos_pow_of_pos _ (by norm_num)),
          Nat.mod_mod_of_dvd _ (pow_dvd_pow 2 hp3), hp4, mod_pow_div_pow,
          Nat.div_div_eq_div_mul, ← pow_add, hp5]
      have hq1 : b - b / SHIFT * SHIFT ≤ SHIFT := by
        rw [hS]
        omega
      have hq2 : (2 : Nat) ^ (SHIFT * (b / SHIFT))
          = 2 ^ a * 2 ^ (SHIFT * (b / SHIFT) - a) := by
        have h : SHIFT * (b / SHIFT) = a + (SHIFT * (b / SHIFT) - a) := by
          rw [hS] at hws_lt ⊢
          omega
        conv_lhs => rw [h]
        rw [pow_add]
      have hq3 : b - a = (SHIFT * (b / SHIFT) - a) + (b - b / SHIFT * SHIFT) := by
        rw [hS] at hws_lt ⊢
        omega
      have hq4 : a + (SHIFT * (b / SHIFT) - a) = SHIFT * (b / SHIFT) := by
        rw [hS] at hws_lt ⊢
        omega
      have h1 : digitN (v.natAbs / 2 ^ a % 2 ^ (b - a) * 2 ^ a) (b / SHIFT)
          = digitN v.natAbs (b / SHIFT) % 2 ^ (b - b / SHIFT * SHIFT) := by
        unfold digitN
        rw [Nat.mod_mod_of_dvd _ (pow_dvd_pow 2 hq1)]
        conv_lhs => rw [hq2, ← Nat.div_div_eq_div_mul,
          Nat.mul_div_cancel _ (Nat.pos_pow_of_pos _ (by norm_num)), hq3,
          mod_pow_div_pow, Nat.div_div_eq_div_mul, ← pow_add, hq4]
        rw [Nat.mod_eq_of_lt (lt_of_lt_of_le
          (Nat.mod_lt _ (Nat.pos_pow_of_pos _ (by norm_num)))
          (Nat.pow_le_pow_right (by norm_num) hq1))]
      have hstop : digitN (v.natAbs / 2 ^ a % 2 ^ (b - a) * 2 ^ a) (b / SHIFT)
            ||| Nat.ldiff (digitN v.natAbs (b / SHIFT)) (2 ^ (b - b / SHIFT * SHIFT) - 1)
          = digitN v.natAbs (b / SHIFT) := by
        rw [h1, or_stop]
      have hsum : ∀ t : Nat, SHIFT * (a / SHIFT + 1) + t = SHIFT * (b / SHIFT) →
          v.natAbs % 2 ^ (SHIFT * (a / SHIFT + 1))
            + v.natAbs / 2 ^ (SHIFT * (a / SHIFT + 1)) % 2 ^ t
              * 2 ^ (SHIFT * (a / SHIFT + 1))
          = v.natAbs % 2 ^ (SHIFT * (b / SHIFT)) := by
        intro t ht
        rw [← ht]
        exact (mod_pow_split v.natAbs _ t).symm
      by_cases hb0 : b - b / SHIFT * SHIFT = 0
      · rw [if_neg (not_not_intro hb0)]
        refine (Int.natCast_inj.mpr ?_).trans habs
        rw [htmp, hmid, low_digit_recompose,
          hsum (SHIFT * (b / SHIFT) - SHIFT * (a / SHIFT + 1))
            (by rw [hS] at hws_lt ⊢; omega),
          Nat.mod_add_div']
      · rw [if_pos hb0]
        refine (Int.natCast_inj.mpr ?_).trans habs
        rw [htmp, hmid, hstop, low_digit_recompose,
          hsum (SHIFT * (b / SHIFT) - SHIFT * (a / SHIFT + 1))
            (by rw [hS] at hws_lt ⊢; omega),
          low_digit_recompose, Nat.mod_add_div']
    · rw [if_neg hB]
      push_neg at hB
      have hnb : v.natAbs < 2 ^ b := by
        refine lt_of_lt_of_le hnv (Nat.pow_le_pow_right (by norm_num) ?_)
        calc SHIFT * rb_numdigits v ≤ SHIFT * (b / SHIFT) := Nat.mul_le_mul_left _ hB
          _ ≤ b := by
              rw [Nat.mul_comm]
              exact Nat.div_mul_le_self _ _
      by_cases hbs0 : a - a / SHIFT * SHIFT = 0
      · rw [if_neg (not_not_intro hbs0)]
        refine (Int.natCast_inj.mpr ?_).trans habs
        have haw : SHIFT * (a / SHIFT) = a := by
          rw [hS] at hbs0 ⊢
          omega
        rw [haw, Nat.mul_div_cancel _ (Nat.pos_pow_of_pos _ (by norm_num)),
          Nat.mod_eq_of_lt (Nat.div_lt_of_lt_mul (by
            rw [← pow_add]
            refine lt_of_lt_of_le hnb (Nat.pow_le_pow_right (by norm_num) ?_)
            omega)),
          Nat.mod_add_div']
      · rw [if_pos hbs0]
        refine (Int.natCast_inj.mpr ?_).trans habs
        have hdiv : v.natAbs / 2 ^ a % 2 ^ (b - a) * 2 ^ a / 2 ^ (SHIFT * (a / SHIFT + 1))
            = v.natAbs / 2 ^ (SHIFT * (a / SHIFT + 1)) := by
          have hr3 : SHIFT * (a / SHIFT + 1) - a ≤ b - a := by
            rw [hS] at hble ⊢
            omega
          have hr4 : b - a = (SHIFT * (a / SHIFT + 1) - a)
              + (b - SHIFT * (a / SHIFT + 1)) := by
            rw [hS] at hble ⊢
            omega
          conv_lhs => rw [hp2, ← Nat.div_div_eq_div_mul,
            Nat.mul_div_cancel _ (Nat.pos_pow_of_pos _ (by norm_num)), hr4,
            mod_pow_div_pow, Nat.div_div_eq_div_mul, ← pow_add, hp5]
          rw [Nat.mod_eq_of_lt (Nat.div_lt_of_lt_mul (by
            rw [← pow_add]
            refine lt_of_lt_of_le hnb (Nat.pow_le_pow_right (by norm_num) ?_)
            rw [hS] at hble ⊢
            omega))]
        rw [htmp2, hdiv, low_digit_recompose, Nat.mod_add_div']

/-- Writing the slice `[a, b)` of a value back into itself through
`setitem_long_int_helper` is the identity (machine-word slice contents). -/
theorem setitem_long_int_helper_roundtrip (v : Int) (a b : Nat) (hv : 0 ≤ v)
    (hab : a < b) (hlt : v.natAbs / 2 ^ a % 2 ^ (b - a) < 2 ^ SHIFT) :
    setitem_long_int_helper v ((v.natAbs / 2 ^ a % 2 ^ (b - a) : Nat) : Int) a b = v := by
  unfold setitem_long_int_helper
  rw [if_neg (not_lt.mpr (Int.natCast_nonneg _)), Int.toNat_natCast]
  exact setitem_long_int_body_roundtrip v a b hv hab hlt

/-- Writing the slice `[a, b)` of a value back into itself through
`setitem_long_long_helper` is the identity. -/
theorem setitem_long_long_helper_roundtrip (v : Int) (a b : Nat) (hv : 0 ≤ v)
    (hab : a < b) :
    setitem_long_long_helper v ((v.natAbs / 2 ^ a % 2 ^ (b - a) : Nat) : Int) a b = v := by
  unfold setitem_long_long_helper
  by_cases h1 : rb_numdigits ((v.natAbs / 2 ^ a % 2 ^ (b - a) : Nat) : Int) ≤ 1
  · rw [if_pos h1]
    have hm : v.natAbs / 2 ^ a % 2 ^ (b - a) < 2 ^ SHIFT := by
      have h2 := (rb_numdigits_le_iff (le_refl 1)).1 h1
      rw [Int.natAbs_ofNat, Nat.mul_one] at h2
      exact h2
    have hd : rb_digit ((v.natAbs / 2 ^ a % 2 ^ (b - a) : Nat) : Int) 0
        = v.natAbs / 2 ^ a % 2 ^ (b - a) := by
      unfold rb_digit digitN
      rw [Int.natAbs_ofNat, Nat.mul_zero, pow_zero, Nat.div_one]
      exact Nat.mod_eq_of_lt hm
    rw [hd]
    exact setitem_long_int_helper_roundtrip v a b hv hab hm
  · rw [if_neg h1, if_neg (not_lt.mpr (Int.natCast_nonneg _))]
    push_neg at h1
    have hm2 : 2 ^ SHIFT ≤ v.natAbs / 2 ^ a % 2 ^ (b - a) := by
      by_contra hc
      push_neg at hc
      have h3 : rb_numdigits ((v.natAbs / 2 ^ a % 2 ^ (b - a) : Nat) : Int) ≤ 1 :=
        (rb_numdigits_le_iff (le_refl 1)).2
          (by rw [Int.natAbs_ofNat, Nat.mul_one]; exact hc)
      omega
    have hwide : SHIFT < b - a := by
      have hlt2 : v.natAbs / 2 ^ a % 2 ^ (b - a) < 2 ^ (b - a) :=
        Nat.mod_lt _ (Nat.pos_pow_of_pos _ (by norm_num))
      exact (Nat.pow_lt_pow_iff_right (by norm_num)).1 (lt_of_le_of_lt hm2 hlt2)
    exact setitem_long_long_body_roundtrip v a b hv hab hwide

/-! ### The `W_Bits` object layer -/

/-- `W_Bits` (bits.py lines 501-508): a width, the machine-word payload
`intval`, and the optional big payload (`bigval` holds the integer value the
`rbigint` payload denotes, `Option.none` when the slot is `None`). -/
structure W_Bits where
  nbits : Nat
  intval : Int := 0
  bigval : Option Int := Option.none
deriving DecidableEq

/-- `descr_uint` (bits.py lines 1255-1259): the machine word in word form
(`nbits <= SHIFT`), the big payload otherwise. -/
def W_Bits.uint (b : W_Bits) : Int :=
  if b.nbits ≤ SHIFT then b.intval else b.bigval.getD 0

/-- The payload invariants (I1)/(I2): the unsigned value is in `[0, 2^nbits)`. -/
def W_Bits.wf (b : W_Bits) : Prop := 0 ≤ b.uint ∧ b.uint < 2 ^ b.nbits

instance (b : W_Bits) : Decidable b.wf := by
  unfold W_Bits.wf
  infer_instance

/-- The operand kinds the descr methods dispatch on: a `Bits` object, a
machine integer (`W_IntObject`), a big integer (`W_LongObject`, given by its
value), or an object of any other type. -/
inductive WVal where
  | bits (b : W_Bits)
  | int (i : Int)
  | long (v : Int)
  | unsup
deriving DecidableEq

/-- Python/RPython bitwise complement on machine integers: `~x = -x - 1`. -/
def int_not (x : Int) : Int := -x - 1

/-- Python arithmetic right shift on machine integers: floor division by
`2^s`. -/
def int_rshift (x : Int) (s : Nat) : Int := Int.fdiv x (2 ^ s)

/-- Modelled from the spec: RPython `ovfcheck` on 64-bit machine integers —
the exact result if it fits in `[-2^63, 2^63)`, otherwise an overflow error
(missing: `pypy.objspace.std.intobject` / `rpython.rlib.rarithmetic`). -/
def ovfcheck (z : Int) : Except OpErr Int :=
  if z < -(2 ^ 63) ∨ 2 ^ 63 ≤ z then .error .overflowError else .ok z

/-- `descr_new` (bits.py lines 520-568). `w_nbits` must be a machine int in
`[1, 512]`; the payload is `w_value` reduced modulo `2^nbits` through the
masking in each branch. -/
def descr_new (w_nbits : WVal) (w_value : WVal) : Except OpErr W_Bits :=
  match w_nbits with
  | .int nbits =>
    if nbits < 1 ∨ 512 < nbits then .error .valueError
    else
      let n := nbits.toNat
      if n ≤ SHIFT then
        let mask := get_int_mask n
        match w_value with
        | .bits wv =>
          if wv.nbits ≤ SHIFT then .ok ⟨n, Int.land wv.intval mask, Option.none⟩
          else .ok ⟨n, Int.land ((rb_digit (wv.bigval.getD 0) 0 : Nat) : Int) mask,
            Option.none⟩
        | .int i => .ok ⟨n, Int.land i mask, Option.none⟩
        | .long v => .ok ⟨n, ((rb_digit (rb_and v mask) 0 : Nat) : Int), Option.none⟩
        | .unsup => .error .typeError
      else
        match w_value with
        | .bits wv =>
          if wv.nbits ≤ SHIFT then .ok ⟨n, 0, Option.some (rb_fromint wv.intval)⟩
          else .ok ⟨n, 0, Option.some (_rbigint_maskoff_high (wv.bigval.getD 0) n)⟩
        | .int i => .ok ⟨n, 0, Option.some (rb_and (get_long_mask n) i)⟩
        | .long v => .ok ⟨n, 0, Option.some (rb_and (get_long_mask n) v)⟩
        | .unsup => .error .typeError
  | _ => .error .typeError

/-- The overflow-checked branch of `_make_descr_binop_opname` (bits.py lines
940-1022), shared by `add`/`mul` (`isComm = true`) and `sub`
(`isComm = false`); `op` is the integer operation (`iiop`/`liop`/`llop` all
act on the denoted values). -/
def descr_arith_binop (op : Int → Int → Int) (isComm : Bool)
    (self : W_Bits) (w_other : WVal) : Except OpErr W_Bits :=
  if self.nbits ≤ SHIFT then
    let x := self.intval
    match w_other with
    | .bits wo =>
      if wo.nbits ≤ SHIFT then
        let y := wo.intval
        let res_nbits := max self.nbits wo.nbits
        let mask := get_int_mask res_nbits
        match ovfcheck (op x y) with
        | .ok z => .ok ⟨res_nbits, Int.land z mask, Option.none⟩
        | .error _ =>
          let z := op (rb_fromint x) y
          if isComm then
            .ok ⟨res_nbits, Int.land ((rb_digit z 0 : Nat) : Int) mask, Option.none⟩
          else .ok ⟨res_nbits, ((rb_digit (rb_and z mask) 0 : Nat) : Int), Option.none⟩
      else
        let y := wo.bigval.getD 0
        if isComm then
          .ok ⟨wo.nbits, 0, Option.some (_rbigint_maskoff_high (op y x) wo.nbits)⟩
        else
          .ok ⟨wo.nbits, 0,
            Option.some (rb_and (op (rb_fromint x) y) (get_long_mask wo.nbits))⟩
    | .int y =>
      let mask := get_int_mask self.nbits
      match ovfcheck (op x y) with
      | .ok z => .ok ⟨self.nbits, Int.land z mask, Option.none⟩
      | .error _ =>
        let z := op (rb_fromint x) y
        if isComm then
          .ok ⟨self.nbits, Int.land ((rb_digit z 0 : Nat) : Int) mask, Option.none⟩
        else .ok ⟨self.nbits, ((rb_digit (rb_and z mask) 0 : Nat) : Int), Option.none⟩
    | .long y =>
      let mask := get_int_mask self.nbits
      if isComm then
        .ok ⟨self.nbits, ((rb_digit (rb_and (op y x) mask) 0 : Nat) : Int), Option.none⟩
      else
        .ok ⟨self.nbits, ((rb_digit (rb_and (op (rb_fromint x) y) mask) 0 : Nat) : Int),
          Option.none⟩
    | .unsup => .error .typeError
  else
    let x := self.bigval.getD 0
    match w_other with
    | .bits wo =>
      if wo.nbits ≤ SHIFT then
        let z := op x wo.intval
        if isComm then .ok ⟨self.nbits, 0, Option.some (_rbigint_maskoff_high z self.nbits)⟩
        else .ok ⟨self.nbits, 0, Option.some (rb_and z (get_long_mask self.nbits))⟩
      else
        let z := op x (wo.bigval.getD 0)
        let res_nbits := max self.nbits wo.nbits
        if isComm then .ok ⟨res_nbits, 0, Option.some (_rbigint_maskoff_high z res_nbits)⟩
        else .ok ⟨res_nbits, 0, Option.some (rb_and z (get_long_mask res_nbits))⟩
    | .int y =>
      let z := op x y
      if isComm then .ok ⟨self.nbits, 0, Option.some (_rbigint_maskoff_high z self.nbits)⟩
      else .ok ⟨self.nbits, 0, Option.some (rb_and z (get_long_mask self.nbits))⟩
    | .long y =>
      let z := op x y
      if isComm then .ok ⟨self.nbits, 0, Option.some (_rbigint_maskoff_high z self.nbits)⟩
      else .ok ⟨self.nbits, 0, Option.some (rb_and z (get_long_mask self.nbits))⟩
    | .unsup => .error .typeError

/-- The logic branch of `_make_descr_binop_opname` (`ovf=False`, bits.py
lines 1026-1052), shared by `and`/`or`/`xor`.  Note: the machine-int and
big-int RHS paths apply `op` with no masking, and the word-form long-RHS
path (line 1037) returns a word-width `W_Bits` carrying a big payload. -/
def descr_logic_binop (op : Int → Int → Int) (self : W_Bits) (w_other : WVal) :
    Except OpErr W_Bits :=
  if self.nbits ≤ SHIFT then
    let x := self.intval
    match w_other with
    | .bits wo =>
      if wo.nbits ≤ SHIFT then
        .ok ⟨max self.nbits wo.nbits, op x wo.intval, Option.none⟩
      else .ok ⟨wo.nbits, 0, Option.some (op (wo.bigval.getD 0) x)⟩
    | .int y => .ok ⟨self.nbits, op x y, Option.none⟩
    | .long y => .ok ⟨self.nbits, 0, Option.some (op y x)⟩
    | .unsup => .error .typeError
  else
    let x := self.bigval.getD 0
    match w_other with
    | .bits wo =>
      if wo.nbits ≤ SHIFT then .ok ⟨self.nbits, 0, Option.some (op x wo.intval)⟩
      else .ok ⟨max self.nbits wo.nbits, 0, Option.some (op x (wo.bigval.getD 0))⟩
    | .int y => .ok ⟨self.nbits, 0, Option.some (op x y)⟩
    | .long y => .ok ⟨self.nbits, 0, Option.some (op x y)⟩
    | .unsup => .error .typeError

def descr_add : W_Bits → WVal → Except OpErr W_Bits :=
  descr_arith_binop (fun a b => a + b) true

def descr_sub : W_Bits → WVal → Except OpErr W_Bits :=
  descr_arith_binop (fun a b => a - b) false

def descr_mul : W_Bits → WVal → Except OpErr W_Bits :=
  descr_arith_binop (fun a b => a * b) true

def descr_and : W_Bits → WVal → Except OpErr W_Bits := descr_logic_binop rb_and

def descr_or : W_Bits → WVal → Except OpErr W_Bits := descr_logic_binop rb_or

def descr_xor : W_Bits → WVal → Except OpErr W_Bits := descr_logic_binop rb_xor

/-- `descr_rshift` (bits.py lines 1109-1153).  The word-form long-RHS branch
(lines 1131-1137) computes `W_Bits(self.nbits, x >> shamt)` without a
`return` (line 1136), so it always falls through to `W_Bits(self.nbits)`. -/
def descr_rshift (self : W_Bits) (w_other : WVal) : Except OpErr W_Bits :=
  if self.nbits ≤ SHIFT then
    let x := self.intval
    match w_other with
    | .bits wo =>
      if wo.nbits ≤ SHIFT then
        let shamt := wo.intval
        if shamt ≤ SHIFT then .ok ⟨self.nbits, int_rshift x shamt.toNat, Option.none⟩
        else .ok ⟨self.nbits, 0, Option.none⟩
      else
        let big := wo.bigval.getD 0
        let shamt := rb_digit big 0
        if rb_numdigits big = 1 ∧ shamt ≤ SHIFT then
          .ok ⟨self.nbits, int_rshift x shamt, Option.none⟩
        else .ok ⟨self.nbits, 0, Option.none⟩
    | .int shamt =>
      if shamt < 0 then .error .valueError
      else if shamt ≤ SHIFT then .ok ⟨self.nbits, int_rshift x shamt.toNat, Option.none⟩
      else .ok ⟨self.nbits, 0, Option.none⟩
    | .long v =>
      if rb_sign v < 0 then .error .valueError
      else
        -- line 1136: `W_Bits( self.nbits, x >> shamt )` is never returned
        .ok ⟨self.nbits, 0, Option.none⟩
    | .unsup => .error .typeError
  else
    let x := self.bigval.getD 0
    match w_other with
    | .bits wo =>
      if wo.nbits ≤ SHIFT then
        match rb_rshift x wo.intval with
        | .ok z => .ok ⟨self.nbits, 0, Option.some z⟩
        | .error e => .error e
      else .ok ⟨self.nbits, 0, Option.some (_rbigint_rshift x (wo.bigval.getD 0))⟩
    | .int shamt =>
      match rb_rshift x shamt with
      | .ok z => .ok ⟨self.nbits, 0, Option.some z⟩
      | .error e => .error e
    | .long v => .ok ⟨self.nbits, 0, Option.some (_rbigint_rshift x v)⟩
    | .unsup => .error .typeError

/-- Peeling a slice bound (bits.py lines 592-626 and 674-708): a `Bits`
bound uses the word payload, or the single digit of a one-digit big payload;
machine ints pass through; longs go through `toint`. -/
def peel_slice_bound (w : WVal) : Except OpErr Int :=
  match w with
  | .bits wb =>
    if wb.nbits ≤ SHIFT then .ok wb.intval
    else
      let tmp := wb.bigval.getD 0
      if 1 < rb_numdigits tmp then .error .valueError
      else .ok ((rb_digit tmp 0 : Nat) : Int)
  | .int i => .ok i
  | .long v => rb_toint v
  | .unsup => .error .typeError

/-- `check_slice_range` (bits.py lines 579-585). -/
def check_slice_range (self : W_Bits) (start stop : Int) : Except OpErr Unit :=
  if stop ≤ start then .error .valueError
  else if start < 0 then .error .valueError
  else if (self.nbits : Int) < stop then .error .valueError
  else .ok ()

/-- The step-free slice branch of `descr_getitem` (bits.py lines 589-639). -/
def descr_getitem_slice (self : W_Bits) (w_start w_stop : WVal) :
    Except OpErr W_Bits :=
  match peel_slice_bound w_start with
  | .error e => .error e
  | .ok start =>
  match peel_slice_bound w_stop with
  | .error e => .error e
  | .ok stop =>
  match check_slice_range self start stop with
  | .error e => .error e
  | .ok _ =>
  let a := start.toNat
  let slice_nbits := stop.toNat - a
  if self.nbits ≤ SHIFT then
    .ok ⟨slice_nbits, Int.land (int_rshift self.intval a) (get_int_mask slice_nbits),
      Option.none⟩
  else
    if slice_nbits ≤ SHIFT then
      .ok ⟨slice_nbits, _rbigint_rshift_maskoff_retint (self.bigval.getD 0) a slice_nbits,
        Option.none⟩
    else
      .ok ⟨slice_nbits, 0,
        Option.some (_rbigint_rshift_maskoff (self.bigval.getD 0) a slice_nbits)⟩

/-- Peeling a single get-index (bits.py lines 644-662): a machine int passes
through unchecked; a long is converted and checked non-negative; a `Bits`
uses its payload (one digit in big form). -/
def peel_getitem_index (w : WVal) : Except OpErr Int :=
  match w with
  | .bits wb =>
    if wb.nbits ≤ SHIFT then .ok wb.intval
    else
      let tmp := wb.bigval.getD 0
      if 1 < rb_numdigits tmp then .error .valueError
      else .ok ((rb_digit tmp 0 : Nat) : Int)
  | .int i => .ok i
  | .long v =>
    match rb_toint v with
    | .error e => .error e
    | .ok i => if i < 0 then .error .valueError else .ok i
  | .unsup => .error .typeError

/-- The single-index branch of `descr_getitem` (bits.py lines 644-669). -/
def descr_getitem_index (self : W_Bits) (w_index : WVal) : Except OpErr W_Bits :=
  match peel_getitem_index w_index with
  | .error e => .error e
  | .ok index =>
  if (self.nbits : Int) ≤ index then .error .valueError
  else if self.nbits ≤ SHIFT then
    .ok ⟨1, Int.land (int_rshift self.intval index.toNat) 1, Option.none⟩
  else .ok ⟨1, _rbigint_getidx (self.bigval.getD 0) index.toNat, Option.none⟩

/-- The step-free slice branch of `descr_setitem` (bits.py lines 671-772).
In both the word and big forms an unsupported RHS type falls through all
the `isinstance` arms and the method returns with no mutation and no error
(there is no trailing `else` raise in the slice branch). -/
def descr_setitem_slice (self : W_Bits) (w_start w_stop : WVal) (w_other : WVal) :
    Except OpErr W_Bits :=
  match peel_slice_bound w_start with
  | .error e => .error e
  | .ok start =>
  match peel_slice_bound w_stop with
  | .error e => .error e
  | .ok stop =>
  match check_slice_range self start stop with
  | .error e => .error e
  | .ok _ =>
  let a := start.toNat
  let b := stop.toNat
  let slice_nbits := b - a
  if self.nbits ≤ SHIFT then
    match w_other with
    | .bits wo =>
      if slice_nbits < wo.nbits then .error .valueError
      else
        let valuemask := int_not (get_int_mask slice_nbits * 2 ^ a)
        let ni := Int.lor (Int.land self.intval valuemask) (wo.intval * 2 ^ a)
        .ok { self with intval := ni }
    | .int other0 =>
      if slice_nbits < int_bit_length other0 then .error .valueError
      else
        let mask := get_int_mask slice_nbits
        let other := Int.land other0 mask
        let valuemask := int_not (mask * 2 ^ a)
        let ni := Int.lor (Int.land self.intval valuemask) (other * 2 ^ a)
        .ok { self with intval := ni }
    | .long other0 =>
      if slice_nbits < rb_bit_length other0 then .error .valueError
      else
        let mask := get_int_mask slice_nbits
        let other := ((rb_digit (rb_and other0 mask) 0 : Nat) : Int)
        let valuemask := int_not (mask * 2 ^ a)
        let ni := Int.lor (Int.land self.intval valuemask) (other * 2 ^ a)
        .ok { self with intval := ni }
    | .unsup => .ok self
  else
    match w_other with
    | .bits wo =>
      if wo.nbits ≤ SHIFT then
        let nb := setitem_long_int_helper (self.bigval.getD 0) wo.intval a b
        .ok { self with bigval := Option.some nb }
      else
        let nb := setitem_long_long_helper (self.bigval.getD 0) (wo.bigval.getD 0) a b
        .ok { self with bigval := Option.some nb }
    | .int other0 =>
      if slice_nbits < int_bit_length other0 then .error .valueError
      else
        let other := rb_and (get_long_mask slice_nbits) other0
        let nb := setitem_long_long_helper (self.bigval.getD 0) other a b
        .ok { self with bigval := Option.some nb }
    | .long other0 =>
      if slice_nbits < rb_bit_length other0 then .error .valueError
      else
        let other := rb_and (get_long_mask slice_nbits) other0
        let nb := setitem_long_long_helper (self.bigval.getD 0) other a b
        .ok { self with bigval := Option.some nb }
    | .unsup => .ok self

/-- `descr_int` (bits.py lines 1261-1295): the signed projection.  In big
form the `1 << (index+1)` subtrahend is assembled from `wordpos` zero digits
and a top digit `1 << bitpos`, i.e. it equals `2^nbits`. -/
def descr_int (self : W_Bits) : Int :=
  let index := self.nbits - 1
  if self.nbits ≤ SHIFT then
    let intval := self.intval
    let msb := Int.land (int_rshift intval index) 1
    intval - msb * get_int_mask self.nbits - msb
  else
    let bigval := self.bigval.getD 0
    let wordpos := index / SHIFT
    if rb_numdigits bigval < wordpos then bigval
    else
      let bitpos := index - wordpos * SHIFT
      let word := rb_digit bigval wordpos
      let msb := (word >>> bitpos) &&& 1
      if msb = 0 then bigval
      else
        let bitpos1 := bitpos + 1
        let wordpos1 := if bitpos1 = SHIFT then wordpos + 1 else wordpos
        let bitpos2 := if bitpos1 = SHIFT then 0 else bitpos1
        bigval - ((2 ^ (SHIFT * wordpos1 + bitpos2) : Nat) : Int)

/-- `descr_invert` (bits.py lines 1315-1319). -/
def descr_invert (self : W_Bits) : W_Bits :=
  if self.nbits ≤ SHIFT then
    ⟨self.nbits, get_int_mask self.nbits - self.intval, Option.none⟩
  else ⟨self.nbits, 0, Option.some (get_long_mask self.nbits - self.bigval.getD 0)⟩

/-- `descr_eq` (bits.py lines 872-924 instantiated at `eq`): payload
comparison after masking the raw-integer RHS; an unsupported RHS compares
unequal (`W_Bits(1, 0)`). -/
def descr_eq (self : W_Bits) (w_other : WVal) : W_Bits :=
  if self.nbits ≤ SHIFT then
    let x := self.intval
    match w_other with
    | .bits wo =>
      if wo.nbits ≤ SHIFT then ⟨1, if x = wo.intval then 1 else 0, Option.none⟩
      else ⟨1, if wo.bigval.getD 0 = x then 1 else 0, Option.none⟩
    | .int y => ⟨1, if x = Int.land y (get_int_mask self.nbits) then 1 else 0, Option.none⟩
    | .long y =>
      ⟨1, if rb_and (get_long_mask self.nbits) y = x then 1 else 0, Option.none⟩
    | .unsup => ⟨1, 0, Option.none⟩
  else
    let x := self.bigval.getD 0
    match w_other with
    | .bits wo =>
      if wo.nbits ≤ SHIFT then ⟨1, if x = wo.intval then 1 else 0, Option.none⟩
      else ⟨1, if x = wo.bigval.getD 0 then 1 else 0, Option.none⟩
    | .int y => ⟨1, if x = rb_and (get_long_mask self.nbits) y then 1 else 0, Option.none⟩
    | .long y => ⟨1, if x = rb_and (get_long_mask self.nbits) y then 1 else 0, Option.none⟩
    | .unsup => ⟨1, 0, Option.none⟩

/-- Modelled from the spec: `intmask`, reinterpreting the low machine word
as a signed 64-bit integer (missing: `rpython.rlib.rarithmetic.intmask`). -/
def intmask (x : Int) : Int := (x + 2 ^ 63) % 2 ^ 64 - 2 ^ 63

/-- Modelled from the spec: `_hash_int`, the machine-integer hash — the
value itself, with `-1` mapped to `-2` (missing:
`pypy.objspace.std.intobject._hash_int`). -/
def _hash_int (i : Int) : Int := if i = -1 then -2 else i

/-- Modelled from the spec: `_hash_long` hashes a big integer consistently
with `_hash_int` on the denoted value (missing:
`pypy.objspace.std.longobject._hash_long`). -/
def _hash_long (v : Int) : Int := _hash_int v

/-- `descr_hash` (bits.py lines 1323-1335): one tuple-hash mixing round of
`hash(nbits)` and `hash(payload)`. -/
def descr_hash (self : W_Bits) : Int :=
  let hash_nbits := _hash_int (self.nbits : Int)
  let hash_value := if SHIFT < self.nbits then _hash_long (self.bigval.getD 0)
                    else _hash_int self.intval
  let x : Int := 0x345678
  let x := (Int.xor x hash_nbits) * 1000003
  let x := (Int.xor x hash_value) * (1000003 + 82520 + 1 + 1)
  let x := x + 97531
  intmask x

/-- `W_BitsWithNext` (bits.py lines 1341-1351): a `W_Bits` with a shadow
next-value slot. -/
structure W_BitsWithNext where
  nbits : Nat
  intval : Int := 0
  bigval : Option Int := Option.none
  next_intval : Int := 0
  next_bigval : Option Int := Option.none
deriving DecidableEq

/-- The current-value view of a `W_BitsWithNext` (it subclasses `W_Bits`). -/
def W_BitsWithNext.toBits (r : W_BitsWithNext) : W_Bits := ⟨r.nbits, r.intval, r.bigval⟩

/-- `W_Bits._descr_ilshift` (bits.py lines 1221-1239): first non-blocking
assign, promoting a plain `Bits` to a fresh `W_BitsWithNext` that carries
the original current value and the masked shadow value. -/
def W_Bits.descr_ilshift0 (self : W_Bits) (w_other : WVal) :
    Except OpErr W_BitsWithNext :=
  match w_other with
  | .bits wo =>
    if self.nbits ≠ wo.nbits then .error .valueError
    else if self.nbits ≤ SHIFT then
      .ok ⟨self.nbits, self.intval, Option.none, wo.intval, Option.none⟩
    else
      .ok ⟨self.nbits, self.intval, self.bigval, 0,
        Option.some (_rbigint_maskoff_high (wo.bigval.getD 0) self.nbits)⟩
  | _ => .error .typeError

/-- `W_BitsWithNext._descr_ilshift` (bits.py lines 1363-1377): subsequent
non-blocking assigns update the shadow slot of the same register in place
(modelled as returning the updated state) and return it. -/
def W_BitsWithNext.descr_ilshift (self : W_BitsWithNext) (w_other : WVal) :
    Except OpErr W_BitsWithNext :=
  match w_other with
  | .bits wo =>
    if self.nbits ≠ wo.nbits then .error .valueError
    else if self.nbits ≤ SHIFT then .ok { self with next_intval := wo.intval }
    else
      let nb := _rbigint_maskoff_high (wo.bigval.getD 0) self.nbits
      .ok { self with next_bigval := Option.some nb }
  | _ => .error .typeError

/-- `W_BitsWithNext._descr_flip` (bits.py lines 1379-1383): copy the shadow
slot into the current value (in place; modelled as the updated state). -/
def W_BitsWithNext.descr_flip (self : W_BitsWithNext) : W_BitsWithNext :=
  if self.nbits ≤ SHIFT then { self with intval := self.next_intval }
  else
    let nb := _rbigint_maskoff_high (self.next_bigval.getD 0) self.nbits
    { self with bigval := Option.some nb }

/-! ### Lemmas about the object layer -/

theorem land_land_distrib (a b c : Int) :
    Int.land (Int.land a c) (Int.land b c) = Int.land (Int.land a b) c := by
  obtain x | x := a <;> obtain y | y := b <;> obtain z | z := c <;>
    simp only [Int.land] <;>
    refine congrArg _ ?_ <;>
    apply Nat.eq_of_testBit_eq <;>
    intro j <;>
    simp only [Nat.testBit_land, Nat.testBit_lor, Nat.testBit_ldiff] <;>
    cases hx : x.testBit j <;> cases hy : y.testBit j <;> cases hz : z.testBit j <;> rfl

theorem lor_land_distrib (a b c : Int) :
    Int.lor (Int.land a c) (Int.land b c) = Int.land (Int.lor a b) c := by
  obtain x | x := a <;> obtain y | y := b <;> obtain z | z := c <;>
    simp only [Int.land, Int.lor] <;>
    refine congrArg _ ?_ <;>
    apply Nat.eq_of_testBit_eq <;>
    intro j <;>
    simp only [Nat.testBit_land, Nat.testBit_lor, Nat.testBit_ldiff] <;>
    cases hx : x.testBit j <;> cases hy : y.testBit j <;> cases hz : z.testBit j <;> rfl

theorem xor_land_distrib (a b c : Int) :
    Int.xor (Int.land a c) (Int.land b c) = Int.land (Int.xor a b) c := by
  obtain x | x := a <;> obtain y | y := b <;> obtain z | z := c <;>
    simp only [Int.land, Int.xor] <;>
    refine congrArg _ ?_ <;>
    apply Nat.eq_of_testBit_eq <;>
    intro j <;>
    simp only [Nat.testBit_land, Nat.testBit_lor, Nat.testBit_ldiff, Nat.testBit_xor] <;>
    cases hx : x.testBit j <;> cases hy : y.testBit j <;> cases hz : z.testBit j <;> rfl

/-- Bitwise AND commutes with reduction modulo `2^k`. -/
theorem land_emod_two_pow (a b : Int) (k : Nat) :
    Int.land a b % (2 : Int) ^ k = Int.land (a % 2 ^ k) (b % 2 ^ k) := by
  rw [← land_mask_right a k, ← land_mask_right b k, ← land_mask_right (Int.land a b) k,
    land_land_distrib]

/-- Bitwise OR commutes with reduction modulo `2^k`. -/
theorem lor_emod_two_pow (a b : Int) (k : Nat) :
    Int.lor a b % (2 : Int) ^ k = Int.lor (a % 2 ^ k) (b % 2 ^ k) := by
  rw [← land_mask_right a k, ← land_mask_right b k, ← land_mask_right (Int.lor a b) k,
    lor_land_distrib]

/-- Bitwise XOR commutes with reduction modulo `2^k`. -/
theorem xor_emod_two_pow (a b : Int) (k : Nat) :
    Int.xor a b % (2 : Int) ^ k = Int.xor (a % 2 ^ k) (b % 2 ^ k) := by
  rw [← land_mask_right a k, ← land_mask_right b k, ← land_mask_right (Int.xor a b) k,
    xor_land_distrib]

/-- Construction through the machine-int branch of `descr_new`: the payload
is the value reduced modulo `2^nbits`, in the form matching the width. -/
theorem descr_new_int_eq (N : Nat) (h1 : 1 ≤ N) (h2 : N ≤ 512) (a : Int) :
    descr_new (.int (N : Int)) (.int a)
      = .ok (if N ≤ SHIFT then ⟨N, a % (2 : Int) ^ N, Option.none⟩
             else ⟨N, 0, Option.some (a % (2 : Int) ^ N)⟩) := by
  have hc : ¬((N : Int) < 1 ∨ 512 < (N : Int)) := by
    push_neg
    exact ⟨by exact_mod_cast h1, by exact_mod_cast h2⟩
  simp only [descr_new]
  rw [if_neg hc, Int.toNat_natCast]
  by_cases hw : N ≤ SHIFT
  · rw [if_pos hw, if_pos hw]
    simp only [get_int_mask]
    rw [land_mask_right]
  · rw [if_neg hw, if_neg hw]
    simp only [rb_and, get_long_mask]
    rw [land_mask_left]

/-- The single magnitude digit of a machine-word-sized non-negative value. -/
theorem rb_digit_zero_small {z : Int} (h0 : 0 ≤ z) (hlt : z < 2 ^ SHIFT) :
    ((rb_digit z 0 : Nat) : Int) = z := by
  unfold rb_digit digitN
  have hn : z.natAbs < 2 ^ SHIFT := by
    have h2 : ((z.natAbs : Nat) : Int) < ((2 ^ SHIFT : Nat) : Int) := by
      rw [Int.natAbs_of_nonneg h0]
      exact_mod_cast hlt
    exact_mod_cast h2
  rw [Nat.mul_zero, pow_zero, Nat.div_one, Nat.mod_eq_of_lt hn, Int.natAbs_of_nonneg h0]

/-- `z.digit(0) & get_int_mask(N)` of a non-negative big value is `z mod
2^N` (the commutative overflow fallback of the word-form arith ops). -/
theorem digit0_land_mask {z : Int} (h0 : 0 ≤ z) (N : Nat) (hN : N ≤ SHIFT) :
    Int.land ((rb_digit z 0 : Nat) : Int) (get_int_mask N) = z % (2 : Int) ^ N := by
  unfold rb_digit digitN get_int_mask
  rw [Nat.mul_zero, pow_zero, Nat.div_one, land_mask_right, emod_two_pow_eq_natAbs z N h0,
    show (2 : Int) ^ N = ((2 ^ N : Nat) : Int) by push_cast; ring, ← Int.natCast_mod,
    Nat.mod_mod_of_dvd _ (pow_dvd_pow 2 hN)]

/-- `z.int_and_(mask).digit(0)` is `z mod 2^N` (the non-commutative overflow
fallback of the word-form arith ops). -/
theorem digit0_of_masked (z : Int) (N : Nat) (hN : N ≤ SHIFT) :
    ((rb_digit (rb_and z (get_int_mask N)) 0 : Nat) : Int) = z % (2 : Int) ^ N := by
  unfold rb_and get_int_mask
  rw [land_mask_right]
  refine rb_digit_zero_small (Int.emod_nonneg z (by positivity)) ?_
  refine lt_of_lt_of_le (Int.emod_lt_of_pos z (by positivity)) ?_
  exact pow_le_pow_right (by norm_num) hN

/-- Word-form arith op on two word-form `Bits` of the same width: both the
overflow-free path and the big-integer fallback produce the masked result. -/
theorem word_arith_eq (op : Int → Int → Int) (isComm : Bool) (N : Nat) (hN : N ≤ SHIFT)
    (xv yv : Int) (hcomm : isComm = true → 0 ≤ op xv yv) :
    descr_arith_binop op isComm ⟨N, xv, Option.none⟩ (.bits ⟨N, yv, Option.none⟩)
      = .ok ⟨N, op xv yv % (2 : Int) ^ N, Option.none⟩ := by
  have hd0 := digit0_of_masked (op xv yv) N hN
  simp only [descr_arith_binop, ovfcheck, rb_fromint, rb_and]
  rw [if_pos hN, if_pos hN, Nat.max_self]
  by_cases hc : op xv yv < -(2 ^ 63) ∨ 2 ^ 63 ≤ op xv yv
  · rw [if_pos hc]
    cases isComm with
    | true =>
      have hd1 := digit0_land_mask (hcomm rfl) N hN
      simp only [get_int_mask] at hd1
      simp [get_int_mask, hd1]
    | false =>
      simp only [rb_and, get_int_mask] at hd0
      simp [get_int_mask, hd0]
  · rw [if_neg hc]
    simp only [get_int_mask]
    rw [land_mask_right]

/-- Word-form logic op on two word-form `Bits` of the same width. -/
theorem word_logic_eq (op : Int → Int → Int) (N : Nat) (hN : N ≤ SHIFT) (xv yv : Int) :
    descr_logic_binop op ⟨N, xv, Option.none⟩ (.bits ⟨N, yv, Option.none⟩)
      = .ok ⟨N, op xv yv, Option.none⟩ := by
  simp only [descr_logic_binop]
  rw [if_pos hN, if_pos hN, Nat.max_self]

/-- Big-form arith op on two big-form `Bits` of the same width. -/
theorem big_arith_eq (op : Int → Int → Int) (isComm : Bool) (N : Nat)
    (hN : ¬(N ≤ SHIFT)) (h1 : 1 ≤ N) (xv yv : Int)
    (hcomm : isComm = true → 0 ≤ op xv yv) :
    descr_arith_binop op isComm ⟨N, 0, Option.some xv⟩ (.bits ⟨N, 0, Option.some yv⟩)
      = .ok ⟨N, 0, Option.some (op xv yv % (2 : Int) ^ N)⟩ := by
  simp only [descr_arith_binop, rb_and, Option.getD]
  rw [if_neg hN, if_neg hN, Nat.max_self]
  cases isComm with
  | true =>
    have hmo := _rbigint_maskoff_high_eq (op xv yv) N (hcomm rfl) h1
    rw [emod_two_pow_eq_natAbs _ _ (hcomm rfl)] at hmo
    simp [hmo, emod_two_pow_eq_natAbs _ _ (hcomm rfl)]
  | false =>
    simp only [get_long_mask]
    rw [land_mask_right]
    simp

/-- Big-form logic op on two big-form `Bits` of the same width (unmasked). -/
theorem big_logic_eq (op : Int → Int → Int) (N : Nat) (hN : ¬(N ≤ SHIFT)) (xv yv : Int) :
    descr_logic_binop op ⟨N, 0, Option.some xv⟩ (.bits ⟨N, 0, Option.some yv⟩)
      = .ok ⟨N, 0, Option.some (op xv yv)⟩ := by
  simp only [descr_logic_binop, Option.getD]
  rw [if_neg hN, if_neg hN, Nat.max_self]

/-- The six operators of claim C1. -/
inductive BinOp where
  | add
  | sub
  | mul
  | band
  | bor
  | bxor
deriving DecidableEq

def applyBinOp : BinOp → W_Bits → WVal → Except OpErr W_Bits
  | .add => descr_add
  | .sub => descr_sub
  | .mul => descr_mul
  | .band => descr_and
  | .bor => descr_or
  | .bxor => descr_xor

def intOp : BinOp → Int → Int → Int
  | .add => fun u v => u + v
  | .sub => fun u v => u - v
  | .mul => fun u v => u * v
  | .band => Int.land
  | .bor => Int.lor
  | .bxor => Int.xor

/-- C1: for every width N in [1, 512], all integers a and b, and every
operator op in {+, −, ×, &, |, ^} on two Bits operands of width N, the
result of `Bits<N>(a) op Bits<N>(b)` is a Bits of width N whose unsigned
value is `(a op b) mod 2^N`. -/
theorem C1_same_width_binop_mod (N : Nat) (h1 : 1 ≤ N) (h2 : N ≤ 512) (a b : Int)
    (op : BinOp) :
    ∃ x y z : W_Bits,
      descr_new (.int (N : Int)) (.int a) = .ok x ∧
      descr_new (.int (N : Int)) (.int b) = .ok y ∧
      applyBinOp op x (.bits y) = .ok z ∧
      z.nbits = N ∧ z.uint = intOp op a b % (2 : Int) ^ N := by
  have hma : 0 ≤ a % (2 : Int) ^ N := Int.emod_nonneg a (by positivity)
  have hmb : 0 ≤ b % (2 : Int) ^ N := Int.emod_nonneg b (by positivity)
  by_cases hw : N ≤ SHIFT
  · have hx : descr_new (.int (N : Int)) (.int a)
        = .ok ⟨N, a % 2 ^ N, Option.none⟩ := by
      rw [descr_new_int_eq N h1 h2 a, if_pos hw]
    have hy : descr_new (.int (N : Int)) (.int b)
        = .ok ⟨N, b % 2 ^ N, Option.none⟩ := by
      rw [descr_new_int_eq N h1 h2 b, if_pos hw]
    cases op with
    | add =>
      refine ⟨_, _, ⟨N, (a + b) % 2 ^ N, Option.none⟩, hx, hy,
        (word_arith_eq _ true N hw _ _ (fun _ => by positivity)).trans
          (by rw [show (a % 2 ^ N + b % 2 ^ N) % (2 : Int) ^ N = (a + b) % 2 ^ N from
            (Int.add_emod a b _).symm]), rfl, ?_⟩
      simp [W_Bits.uint, hw, intOp]
    | sub =>
      refine ⟨_, _, ⟨N, (a - b) % 2 ^ N, Option.none⟩, hx, hy,
        (word_arith_eq _ false N hw _ _ (fun h => nomatch h)).trans
          (by rw [show (a % 2 ^ N - b % 2 ^ N) % (2 : Int) ^ N = (a - b) % 2 ^ N from
            (Int.sub_emod a b _).symm]), rfl, ?_⟩
      simp [W_Bits.uint, hw, intOp]
    | mul =>
      refine ⟨_, _, ⟨N, (a * b) % 2 ^ N, Option.none⟩, hx, hy,
        (word_arith_eq _ true N hw _ _ (fun _ => mul_nonneg hma hmb)).trans
          (by rw [show a % 2 ^ N * (b % 2 ^ N) % (2 : Int) ^ N = (a * b) % 2 ^ N from
            (Int.mul_emod a b _).symm]), rfl, ?_⟩
      simp [W_Bits.uint, hw, intOp]
    | band =>
      refine ⟨_, _, ⟨N, Int.land a b % 2 ^ N, Option.none⟩, hx, hy,
        (word_logic_eq _ N hw _ _).trans
          (by simp only [rb_and]
              rw [show Int.land (a % 2 ^ N) (b % 2 ^ N) = Int.land a b % (2 : Int) ^ N
                from (land_emod_two_pow a b N).symm]), rfl, ?_⟩
      simp [W_Bits.uint, hw, intOp]
    | bor =>
      refine ⟨_, _, ⟨N, Int.lor a b % 2 ^ N, Option.none⟩, hx, hy,
        (word_logic_eq _ N hw _ _).trans
          (by simp only [rb_or]
              rw [show Int.lor (a % 2 ^ N) (b % 2 ^ N) = Int.lor a b % (2 : Int) ^ N
                from (lor_emod_two_pow a b N).symm]), rfl, ?_⟩
      simp [W_Bits.uint, hw, intOp]
    | bxor =>
      refine ⟨_, _, ⟨N, Int.xor a b % 2 ^ N, Option.none⟩, hx, hy,
        (word_logic_eq _ N hw _ _).trans
          (by simp only [rb_xor]
              rw [show Int.xor (a % 2 ^ N) (b % 2 ^ N) = Int.xor a b % (2 : Int) ^ N
                from (xor_emod_two_pow a b N).symm]), rfl, ?_⟩
      simp [W_Bits.uint, hw, intOp]
  · have hx : descr_new (.int (N : Int)) (.int a)
        = .ok ⟨N, 0, Option.some (a % 2 ^ N)⟩ := by
      rw [descr_new_int_eq N h1 h2 a, if_neg hw]
    have hy : descr_new (.int (N : Int)) (.int b)
        = .ok ⟨N, 0, Option.some (b % 2 ^ N)⟩ := by
      rw [descr_new_int_eq N h1 h2 b, if_neg hw]
    cases op with
    | add =>
      refine ⟨_, _, ⟨N, 0, Option.some ((a + b) % 2 ^ N)⟩, hx, hy,
        (big_arith_eq _ true N hw h1 _ _ (fun _ => by positivity)).trans
          (by rw [show (a % 2 ^ N + b % 2 ^ N) % (2 : Int) ^ N = (a + b) % 2 ^ N from
            (Int.add_emod a b _).symm]), rfl, ?_⟩
      simp [W_Bits.uint, hw, intOp]
    | sub =>
      refine ⟨_, _, ⟨N, 0, Option.some ((a - b) % 2 ^ N)⟩, hx, hy,
        (big_arith_eq _ false N hw h1 _ _ (fun h => nomatch h)).trans
          (by rw [show (a % 2 ^ N - b % 2 ^ N) % (2 : Int) ^ N = (a - b) % 2 ^ N from
            (Int.sub_emod a b _).symm]), rfl, ?_⟩
      simp [W_Bits.uint, hw, intOp]
    | mul =>
      refine ⟨_, _, ⟨N, 0, Option.some ((a * b) % 2 ^ N)⟩, hx, hy,
        (big_arith_eq _ true N hw h1 _ _ (fun _ => mul_nonneg hma hmb)).trans
          (by rw [show a % 2 ^ N * (b % 2 ^ N) % (2 : Int) ^ N = (a * b) % 2 ^ N from
            (Int.mul_emod a b _).symm]), rfl, ?_⟩
      simp [W_Bits.uint, hw, intOp]
    | band =>
      refine ⟨_, _, ⟨N, 0, Option.some (Int.land a b % 2 ^ N)⟩, hx, hy,
        (big_logic_eq _ N hw _ _).trans
          (by simp only [rb_and]
              rw [show Int.land (a % 2 ^ N) (b % 2 ^ N) = Int.land a b % (2 : Int) ^ N
                from (land_emod_two_pow a b N).symm]), rfl, ?_⟩
      simp [W_Bits.uint, hw, intOp]
    | bor =>
      refine ⟨_, _, ⟨N, 0, Option.some (Int.lor a b % 2 ^ N)⟩, hx, hy,
        (big_logic_eq _ N hw _ _).trans
          (by simp only [rb_or]
              rw [show Int.lor (a % 2 ^ N) (b % 2 ^ N) = Int.lor a b % (2 : Int) ^ N
                from (lor_emod_two_pow a b N).symm]), rfl, ?_⟩
      simp [W_Bits.uint, hw, intOp]
    | bxor =>
      refine ⟨_, _, ⟨N, 0, Option.some (Int.xor a b % 2 ^ N)⟩, hx, hy,
        (big_logic_eq _ N hw _ _).trans
          (by simp only [rb_xor]
              rw [show Int.xor (a % 2 ^ N) (b % 2 ^ N) = Int.xor a b % (2 : Int) ^ N
                from (xor_emod_two_pow a b N).symm]), rfl, ?_⟩
      simp [W_Bits.uint, hw, intOp]

/-- Witness for C1 at N = 8, a = 200, b = 77, op = ×. -/
theorem C1_same_width_binop_mod_witness :
    1 ≤ 8 ∧ 8 ≤ 512 ∧
    ∃ x y z : Mamba.W_Bits,
      Mamba.descr_new (.int ((8 : Nat) : Int)) (.int 200) = .ok x ∧
      Mamba.descr_new (.int ((8 : Nat) : Int)) (.int 77) = .ok y ∧
      Mamba.applyBinOp .mul x (.bits y) = .ok z ∧
      z.nbits = 8 ∧ z.uint = Mamba.intOp .mul 200 77 % (2 : Int) ^ 8 :=
  ⟨by norm_num, by norm_num,
    C1_same_width_binop_mod 8 (by norm_num) (by norm_num) 200 77 .mul⟩

/-- C2 (refuting the payload invariant): XOR-ing `Bits<8>(0)` with the
machine integer `-1` succeeds and yields a `Bits` whose payload (and hence
`uint`) is `-1`, violating I1/I2/P1 — the word-form logic ops skip masking
for raw-integer RHS operands (bits.py line 1035). -/
theorem C2_logic_int_rhs_breaks_invariant :
    ∃ z : W_Bits, descr_xor (W_Bits.mk 8 0 Option.none) (WVal.int (-1)) = .ok z ∧
      z.uint < 0 ∧ z.nbits = 8 :=
  ⟨_, rfl, by decide, by decide⟩

/-- C3 (refuting the right-shift contract): in word form with a big-integer
shift amount in range, the shifted result is built but not returned (missing
`return`, bits.py line 1136), so `Bits<8>(0xFF) >> long(0)` returns `0`
instead of `0xFF`. -/
theorem C3_word_rshift_long_drops_result :
    descr_rshift (W_Bits.mk 8 255 Option.none) (WVal.long 0)
        = .ok (W_Bits.mk 8 0 Option.none)
    ∧ (W_Bits.mk 8 255 Option.none).uint = 255 :=
  ⟨by rfl, by rfl⟩

/-- C8 (refuting "negative shift raises"): a big-form `Bits` right-shifted
by the negative big integer `-1` does not raise — `_rbigint_rshift` reads
the magnitude digit of the shift amount (bits.py line 112) and shifts by 1. -/
theorem C8_big_rshift_negative_long_no_error :
    descr_rshift (W_Bits.mk 100 0 (Option.some (2 ^ 64))) (WVal.long (-1))
      = .ok (W_Bits.mk 100 0 (Option.some (2 ^ 63))) := by
  rfl

/-- C10 counterexample: `Bits<8>(5) == Bits<16>(5)` returns true (payload
comparison ignores the width), but the hashes mix in `nbits` and differ. -/
theorem C10_eq_across_widths_hash_differs :
    (descr_eq (W_Bits.mk 8 5 Option.none) (.bits (W_Bits.mk 16 5 Option.none))).intval = 1
    ∧ descr_hash (W_Bits.mk 8 5 Option.none) ≠ descr_hash (W_Bits.mk 16 5 Option.none) :=
  ⟨by rfl, by decide⟩

/-- C10 amended: for `Bits` values of the same width, `x == y` implies
`hash(x) = hash(y)`. -/
theorem C10_same_width_eq_hash (x y : W_Bits) (hn : x.nbits = y.nbits)
    (h : (descr_eq x (.bits y)).intval = 1) : descr_hash x = descr_hash y := by
  simp only [descr_eq] at h
  by_cases hw : x.nbits ≤ SHIFT
  · rw [if_pos hw, if_pos (hn ▸ hw)] at h
    by_cases he : x.intval = y.intval
    · simp only [descr_hash]
      rw [if_neg (not_lt.mpr hw), if_neg (not_lt.mpr (hn ▸ hw)), hn, he]
    · rw [if_neg he] at h
      exact absurd h (by decide)
  · rw [if_neg hw, if_neg (hn ▸ hw)] at h
    by_cases he : x.bigval.getD 0 = y.bigval.getD 0
    · simp only [descr_hash]
      rw [if_pos (not_le.mp hw), if_pos (not_le.mp (hn ▸ hw)), hn, he]
    · rw [if_neg he] at h
      exact absurd h (by decide)

/-- Witness for the amended C10 at two equal `Bits<8>(5)` values. -/
theorem C10_same_width_eq_hash_witness :
    descr_hash (W_Bits.mk 8 5 Option.none) = descr_hash (W_Bits.mk 8 5 Option.none) :=
  C10_same_width_eq_hash (W_Bits.mk 8 5 Option.none) (W_Bits.mk 8 5 Option.none) rfl (by rfl)

/-- C4 counterexample: in big form, a `Bits` RHS wider than the slice is
accepted — `Bits<64>` assigned into the 4-bit slice `[0:4)` of a `Bits<100>`
returns normally (bits.py lines 749-753 have no width check). -/
theorem C4_big_form_bits_rhs_unchecked :
    ∃ z : W_Bits,
      descr_setitem_slice (W_Bits.mk 100 0 (Option.some 0)) (.int 0) (.int 4)
        (.bits (W_Bits.mk 64 0 (Option.some 0))) = .ok z :=
  ⟨_, by rfl⟩

/-- C4 amended: the width checks that exist — a machine-int RHS and a
big-int RHS that do not fit in `stop - start` bits raise a value error in
both forms, and a word-form target rejects a `Bits` RHS wider than the
slice. -/
theorem C4_slice_width_checks (self : W_Bits) (a b : Int)
    (hchk : check_slice_range self a b = .ok ()) :
    (∀ i : Int, b.toNat - a.toNat < int_bit_length i →
      descr_setitem_slice self (.int a) (.int b) (.int i) = .error .valueError) ∧
    (∀ v : Int, b.toNat - a.toNat < rb_bit_length v →
      descr_setitem_slice self (.int a) (.int b) (.long v) = .error .valueError) ∧
    (∀ wo : W_Bits, self.nbits ≤ SHIFT → b.toNat - a.toNat < wo.nbits →
      descr_setitem_slice self (.int a) (.int b) (.bits wo) = .error .valueError) := by
  refine ⟨fun i hi => ?_, fun v hv => ?_, fun wo hw hwo => ?_⟩ <;>
    simp only [descr_setitem_slice, peel_slice_bound] <;> rw [hchk]
  · by_cases hw : self.nbits ≤ SHIFT
    · rw [if_pos hw, if_pos hi]
    · rw [if_neg hw, if_pos hi]
  · by_cases hw : self.nbits ≤ SHIFT
    · rw [if_pos hw, if_pos hv]
    · rw [if_neg hw, if_pos hv]
  · rw [if_pos hw, if_pos hwo]

/-- Witness for the amended C4: a 31-wide int into a 4-bit slice raises. -/
theorem C4_slice_width_checks_witness :
    descr_setitem_slice (W_Bits.mk 8 0 Option.none) (.int 0) (.int 4) (.int 31)
      = .error .valueError :=
  (C4_slice_width_checks (W_Bits.mk 8 0 Option.none) 0 4 (by rfl)).1 31 (by decide)

/-- Extracting bit `k` of a non-negative machine integer by shift-and-AND. -/
theorem land_one_rshift (v : Int) (h0 : 0 ≤ v) (k : Nat) :
    Int.land (int_rshift v k) 1 = ((v.natAbs / 2 ^ k % 2 : Nat) : Int) := by
  unfold int_rshift
  rw [Int.fdiv_eq_ediv _ (by positivity), show (1 : Int) = 2 ^ 1 - 1 by norm_num,
    land_mask_right]
  have hdiv : v / (2 : Int) ^ k = ((v.natAbs / 2 ^ k : Nat) : Int) := by
    rw [← Int.natAbs_of_nonneg h0]
    norm_cast
  rw [hdiv, pow_one, show (2 : Int) = ((2 : Nat) : Int) by norm_num, ← Int.natCast_mod]

/-- C6: reading bit `i` of a `Bits` value, for an in-range index supplied as
a machine int, a big int, or a `Bits` value of either form (word-form via
its word payload, big-form via the single digit of its one-digit big
payload), returns `Bits<1>` holding bit `i` of the unsigned value (0 when
`i` is beyond the significant digits). -/
theorem C6_getitem_bit (x : W_Bits) (hwf : x.wf) (h512 : x.nbits ≤ 512) (i : Int)
    (h0 : 0 ≤ i) (hiN : i < (x.nbits : Int)) :
    descr_getitem_index x (.int i)
        = .ok ⟨1, ((x.uint.natAbs / 2 ^ i.toNat % 2 : Nat) : Int), Option.none⟩ ∧
    descr_getitem_index x (.long i)
        = .ok ⟨1, ((x.uint.natAbs / 2 ^ i.toNat % 2 : Nat) : Int), Option.none⟩ ∧
    (∀ wb : W_Bits, wb.nbits ≤ SHIFT → wb.intval = i →
      descr_getitem_index x (.bits wb)
        = .ok ⟨1, ((x.uint.natAbs / 2 ^ i.toNat % 2 : Nat) : Int), Option.none⟩) ∧
    ∀ wb : W_Bits, ¬(wb.nbits ≤ SHIFT) → wb.bigval.getD 0 = i →
      descr_getitem_index x (.bits wb)
        = .ok ⟨1, ((x.uint.natAbs / 2 ^ i.toNat % 2 : Nat) : Int), Option.none⟩ := by
  have hidx : ¬((x.nbits : Int) ≤ i) := not_le.mpr hiN
  have hbody : (if (x.nbits : Int) ≤ i then (.error .valueError : Except OpErr W_Bits)
      else if x.nbits ≤ SHIFT then
        .ok ⟨1, Int.land (int_rshift x.intval i.toNat) 1, Option.none⟩
      else .ok ⟨1, _rbigint_getidx (x.bigval.getD 0) i.toNat, Option.none⟩)
      = .ok ⟨1, ((x.uint.natAbs / 2 ^ i.toNat % 2 : Nat) : Int), Option.none⟩ := by
    rw [if_neg hidx]
    by_cases hw : x.nbits ≤ SHIFT
    · rw [if_pos hw]
      have huint : x.uint = x.intval := by simp [W_Bits.uint, hw]
      rw [land_one_rshift x.intval (huint ▸ hwf.1) i.toNat, huint]
    · rw [if_neg hw]
      have huint : x.uint = x.bigval.getD 0 := by simp [W_Bits.uint, hw]
      rw [_rbigint_getidx_eq, huint]
  have h512i : (x.nbits : Int) ≤ 512 := by exact_mod_cast h512
  have hi63 : i < 2 ^ 63 := lt_of_lt_of_le hiN (le_trans h512i (by norm_num))
  have hpeel_long : peel_getitem_index (.long i) = .ok i := by
    simp only [peel_getitem_index, rb_toint]
    rw [if_pos ⟨le_trans (by norm_num) h0, hi63⟩]
    show (if i < 0 then (.error .valueError : Except OpErr Int) else .ok i) = .ok i
    rw [if_neg (not_lt.mpr h0)]
  refine ⟨?_, ?_, ?_, ?_⟩
  · simp only [descr_getitem_index, peel_getitem_index]
    exact hbody
  · simp only [descr_getitem_index]
    rw [hpeel_long]
    exact hbody
  · intro wb hwb hval
    simp only [descr_getitem_index, peel_getitem_index]
    rw [if_pos hwb, hval]
    exact hbody
  · intro wb hwb hval
    simp only [descr_getitem_index, peel_getitem_index]
    rw [if_neg hwb, hval]
    have hiS : i < (2 : Int) ^ SHIFT := by
      rw [show SHIFT = 63 from rfl]
      exact hi63
    have hnum : ¬(1 < rb_numdigits i) := by
      have hn : i.natAbs < 2 ^ (SHIFT * 1) := by
        have h2 : ((i.natAbs : Nat) : Int) < ((2 ^ (SHIFT * 1) : Nat) : Int) := by
          rw [Int.natAbs_of_nonneg h0]
          refine lt_of_lt_of_le hiS ?_
          rw [show SHIFT = 63 from rfl]
          push_cast
        exact_mod_cast h2
      exact not_lt.mpr ((rb_numdigits_le_iff (le_refl 1)).2 hn)
    rw [if_neg hnum, rb_digit_zero_small h0 hiS]
    exact hbody

/-- C7: the signed projection equals `uint - msb * 2^nbits`, where `msb` is
bit `nbits - 1` of the unsigned value; in big form the assembled subtrahend
`1 << nbits` is applied exactly when the msb is set. -/
theorem C7_int_signed_projection (x : W_Bits) (hwf : x.wf) (h1 : 1 ≤ x.nbits) :
    descr_int x
      = x.uint - ((x.uint.natAbs / 2 ^ (x.nbits - 1) % 2 : Nat) : Int) * 2 ^ x.nbits := by
  have hS : SHIFT = 63 := rfl
  simp only [descr_int]
  by_cases hw : x.nbits ≤ SHIFT
  · rw [if_pos hw]
    have huint : x.uint = x.intval := by simp [W_Bits.uint, hw]
    rw [land_one_rshift x.intval (huint ▸ hwf.1) (x.nbits - 1), huint]
    unfold get_int_mask
    ring
  · rw [if_neg hw]
    have huint : x.uint = x.bigval.getD 0 := by simp [W_Bits.uint, hw]
    have h0v : 0 ≤ x.bigval.getD 0 := huint ▸ hwf.1
    have hnd := natAbs_lt_shift_numdigits (x.bigval.getD 0)
    by_cases hg : rb_numdigits (x.bigval.getD 0) < (x.nbits - 1) / SHIFT
    · rw [if_pos hg]
      have hlt : (x.bigval.getD 0).natAbs < 2 ^ (x.nbits - 1) := by
        refine lt_of_lt_of_le hnd (Nat.pow_le_pow_right (by norm_num) ?_)
        rw [hS] at hg ⊢
        omega
      rw [huint, Nat.div_eq_of_lt hlt]
      simp
    · rw [if_neg hg]
      have hbp : x.nbits - 1 - (x.nbits - 1) / SHIFT * SHIFT ≤ SHIFT := by
        rw [hS]
        omega
      have hmsb : rb_digit (x.bigval.getD 0) ((x.nbits - 1) / SHIFT)
            >>> (x.nbits - 1 - (x.nbits - 1) / SHIFT * SHIFT) &&& 1
          = (x.bigval.getD 0).natAbs / 2 ^ (x.nbits - 1) % 2 := by
        unfold rb_digit
        rw [Nat.and_one_is_mod, Nat.shiftRight_eq_div_pow,
          digitN_div _ _ _ hbp,
          Nat.mod_mod_of_dvd _ (dvd_pow_self 2
            (show SHIFT - (x.nbits - 1 - (x.nbits - 1) / SHIFT * SHIFT) ≠ 0 by
              rw [hS]
              omega)),
          show SHIFT * ((x.nbits - 1) / SHIFT)
              + (x.nbits - 1 - (x.nbits - 1) / SHIFT * SHIFT) = x.nbits - 1 by
            rw [hS]
            omega]
      by_cases hm : rb_digit (x.bigval.getD 0) ((x.nbits - 1) / SHIFT)
          >>> (x.nbits - 1 - (x.nbits - 1) / SHIFT * SHIFT) &&& 1 = 0
      · rw [if_pos hm]
        rw [hmsb] at hm
        rw [huint, hm]
        simp
      · rw [if_neg hm]
        rw [hmsb] at hm
        have hbit : (x.bigval.getD 0).natAbs / 2 ^ (x.nbits - 1) % 2 = 1 := by omega
        have hexp : SHIFT * (if x.nbits - 1 - (x.nbits - 1) / SHIFT * SHIFT + 1 = SHIFT
              then (x.nbits - 1) / SHIFT + 1 else (x.nbits - 1) / SHIFT)
            + (if x.nbits - 1 - (x.nbits - 1) / SHIFT * SHIFT + 1 = SHIFT then 0
              else x.nbits - 1 - (x.nbits - 1) / SHIFT * SHIFT + 1) = x.nbits := by
          by_cases hc : x.nbits - 1 - (x.nbits - 1) / SHIFT * SHIFT + 1 = SHIFT
          · rw [if_pos hc, if_pos hc, hS] at *
            rw [hS] at hc ⊢
            omega
          · rw [if_neg hc, if_neg hc]
            rw [hS] at hc ⊢
            omega
        rw [huint, hexp, hbit]
        push_cast
        ring

/-- C9: the first non-blocking assign promotes a plain `Bits` to a fresh
register carrying the old current value; `flip` reveals the assigned value;
subsequent assigns update the same register; width mismatches raise a value
error and non-`Bits` RHS a type error. -/
theorem C9_nonblocking_assign (r v : W_Bits) (hn : v.nbits = r.nbits) (hv : v.wf) :
    ∃ reg : W_BitsWithNext,
      W_Bits.descr_ilshift0 r (.bits v) = .ok reg ∧
      reg.toBits.uint = r.uint ∧
      (W_BitsWithNext.descr_flip reg).toBits.uint = v.uint ∧
      (∀ v2 : W_Bits, v2.nbits = r.nbits → v2.wf →
        ∃ reg2 : W_BitsWithNext,
          W_BitsWithNext.descr_ilshift reg (.bits v2) = .ok reg2 ∧
          reg2.toBits.uint = reg.toBits.uint ∧
          (W_BitsWithNext.descr_flip reg2).toBits.uint = v2.uint) ∧
      (∀ w : W_Bits, w.nbits ≠ r.nbits →
        W_Bits.descr_ilshift0 r (.bits w) = .error .valueError) ∧
      (∀ i : Int, W_Bits.descr_ilshift0 r (.int i) = .error .typeError) := by
  have hS : SHIFT = 63 := rfl
  have hmaskv : ∀ u : W_Bits, u.nbits = r.nbits → u.wf → ¬(r.nbits ≤ SHIFT) →
      _rbigint_maskoff_high (u.bigval.getD 0) r.nbits = u.uint := by
    intro u hun hu hwb
    have huu : u.uint = u.bigval.getD 0 := by
      simp [W_Bits.uint, hun ▸ hwb]
    rw [_rbigint_maskoff_high_eq _ _ (huu ▸ hu.1) (by rw [hS] at hwb; omega), ← huu]
    refine Int.emod_eq_of_lt hu.1 ?_
    rw [← hun]
    exact hu.2
  by_cases hw : r.nbits ≤ SHIFT
  · refine ⟨⟨r.nbits, r.intval, Option.none, v.intval, Option.none⟩, ?_, ?_, ?_, ?_, ?_, ?_⟩
    · simp only [W_Bits.descr_ilshift0]
      rw [if_neg (fun hne => hne hn.symm), if_pos hw]
    · simp [W_BitsWithNext.toBits, W_Bits.uint, hw]
    · simp [W_BitsWithNext.descr_flip, W_BitsWithNext.toBits, W_Bits.uint, hw, hn ▸ hw]
    · intro v2 h2 hv2
      refine ⟨⟨r.nbits, r.intval, Option.none, v2.intval, Option.none⟩, ?_, rfl, ?_⟩
      · simp only [W_BitsWithNext.descr_ilshift]
        rw [if_neg (fun hne => hne h2.symm), if_pos hw]
      · simp [W_BitsWithNext.descr_flip, W_BitsWithNext.toBits, W_Bits.uint, hw, h2 ▸ hw]
    · intro w hne
      simp only [W_Bits.descr_ilshift0]
      rw [if_pos hne.symm]
    · intro i
      rfl
  · refine ⟨⟨r.nbits, r.intval, r.bigval, 0,
      Option.some (_rbigint_maskoff_high (v.bigval.getD 0) r.nbits)⟩, ?_, ?_, ?_, ?_, ?_, ?_⟩
    · simp only [W_Bits.descr_ilshift0]
      rw [if_neg (fun hne => hne hn.symm), if_neg hw]
    · simp [W_BitsWithNext.toBits, W_Bits.uint, hw]
    · have hflip : (W_BitsWithNext.descr_flip ⟨r.nbits, r.intval, r.bigval, 0,
            Option.some (_rbigint_maskoff_high (v.bigval.getD 0) r.nbits)⟩).toBits.uint
          = _rbigint_maskoff_high
              (_rbigint_maskoff_high (v.bigval.getD 0) r.nbits) r.nbits := by
        simp only [W_BitsWithNext.descr_flip]
        rw [if_neg hw]
        simp only [W_BitsWithNext.toBits, W_Bits.uint]
        rw [if_neg hw]
        rfl
      rw [hflip, hmaskv v hn hv hw,
        _rbigint_maskoff_high_eq _ _ hv.1 (by rw [hS] at hw; omega)]
      refine Int.emod_eq_of_lt hv.1 ?_
      rw [← hn]
      exact hv.2
    · intro v2 h2 hv2
      refine ⟨⟨r.nbits, r.intval, r.bigval, 0,
        Option.some (_rbigint_maskoff_high (v2.bigval.getD 0) r.nbits)⟩, ?_, rfl, ?_⟩
      · simp only [W_BitsWithNext.descr_ilshift]
        rw [if_neg (fun hne => hne h2.symm), if_neg hw]
      · have hflip : (W_BitsWithNext.descr_flip ⟨r.nbits, r.intval, r.bigval, 0,
              Option.some (_rbigint_maskoff_high (v2.bigval.getD 0) r.nbits)⟩).toBits.uint
            = _rbigint_maskoff_high
                (_rbigint_maskoff_high (v2.bigval.getD 0) r.nbits) r.nbits := by
          simp only [W_BitsWithNext.descr_flip]
          rw [if_neg hw]
          simp only [W_BitsWithNext.toBits, W_Bits.uint]
          rw [if_neg hw]
          rfl
        rw [hflip, hmaskv v2 h2 hv2 hw,
          _rbigint_maskoff_high_eq _ _ hv2.1 (by rw [hS] at hw; omega)]
        refine Int.emod_eq_of_lt hv2.1 ?_
        rw [← h2]
        exact hv2.2
    · intro w hne
      simp only [W_Bits.descr_ilshift0]
      rw [if_pos hne.symm]
    · intro i
      rfl

/-- Grafting the slice `[a, a+w)` of a value back over itself: clearing the
window with the complemented mask and OR-ing the extracted field back is the
identity. -/
theorem slice_graft (xn a w : Nat) :
    Nat.ldiff xn ((2 ^ w - 1) * 2 ^ a) ||| xn / 2 ^ a % 2 ^ w * 2 ^ a = xn := by
  apply Nat.eq_of_testBit_eq
  intro j
  rw [Nat.testBit_lor, Nat.testBit_ldiff,
    show (2 ^ w - 1) * 2 ^ a = 2 ^ a * (2 ^ w - 1) from Nat.mul_comm _ _,
    show xn / 2 ^ a % 2 ^ w * 2 ^ a = 2 ^ a * (xn / 2 ^ a % 2 ^ w) from Nat.mul_comm _ _,
    Nat.testBit_mul_pow_two, Nat.testBit_mul_pow_two, Nat.testBit_two_pow_sub_one,
    show xn / 2 ^ a = xn >>> a from (Nat.shiftRight_eq_div_pow xn a).symm,
    Nat.testBit_mod_two_pow, Nat.testBit_shiftRight]
  by_cases hja : a ≤ j
  · by_cases hjw : j - a < w
    · simp [hja, hjw, Nat.add_sub_cancel' hja]
    · simp [hja, hjw]
  · simp [hja]

/-- The word-form slice round-trip on the machine payload. -/
theorem int_slice_graft (xi : Int) (h0 : 0 ≤ xi) (a w : Nat) :
    Int.lor (Int.land xi (int_not (get_int_mask w * 2 ^ a)))
      (Int.land (int_rshift xi a) (get_int_mask w) * 2 ^ a) = xi := by
  obtain xn | xn := xi
  · have hmask : ((2 ^ w - 1 : Nat) : Int) = (2 : Int) ^ w - 1 := by
      have h1 : (1 : Nat) ≤ 2 ^ w := Nat.one_le_two_pow
      push_cast [h1]
      ring
    have hK : get_int_mask w * (2 : Int) ^ a = (((2 ^ w - 1) * 2 ^ a : Nat) : Int) := by
      unfold get_int_mask
      rw [← hmask]
      push_cast
      ring
    have hnot : int_not (get_int_mask w * 2 ^ a) = Int.negSucc ((2 ^ w - 1) * 2 ^ a) := by
      rw [hK]
      unfold int_not
      rw [Int.negSucc_eq]
      push_cast
      ring
    have hy : Int.land (int_rshift (Int.ofNat xn) a) (get_int_mask w)
        = Int.ofNat (xn / 2 ^ a % 2 ^ w) := by
      unfold int_rshift get_int_mask
      rw [Int.fdiv_eq_ediv _ (by positivity), land_mask_right,
        show Int.ofNat xn = ((xn : Nat) : Int) from rfl]
      norm_cast
    rw [hnot, hy]
    have hland : Int.land (Int.ofNat xn) (Int.negSucc ((2 ^ w - 1) * 2 ^ a))
        = Int.ofNat (Nat.ldiff xn ((2 ^ w - 1) * 2 ^ a)) := rfl
    rw [hland, show Int.ofNat (xn / 2 ^ a % 2 ^ w) * (2 : Int) ^ a
        = Int.ofNat (xn / 2 ^ a % 2 ^ w * 2 ^ a) by
          rw [show Int.ofNat (xn / 2 ^ a % 2 ^ w) = ((xn / 2 ^ a % 2 ^ w : Nat) : Int)
              from rfl,
            show Int.ofNat (xn / 2 ^ a % 2 ^ w * 2 ^ a)
              = ((xn / 2 ^ a % 2 ^ w * 2 ^ a : Nat) : Int) from rfl]
          push_cast
          ring,
      show Int.lor (Int.ofNat (Nat.ldiff xn ((2 ^ w - 1) * 2 ^ a)))
          (Int.ofNat (xn / 2 ^ a % 2 ^ w * 2 ^ a))
        = Int.ofNat (Nat.ldiff xn ((2 ^ w - 1) * 2 ^ a) ||| xn / 2 ^ a % 2 ^ w * 2 ^ a)
        from rfl]
    exact congrArg Int.ofNat (slice_graft xn a w)
  · exact absurd h0 (by simp)

/-- C5: reading the slice `[a, b)` of a `Bits` value and assigning it back
completes without error and leaves the unsigned value unchanged. -/
theorem C5_slice_roundtrip (x : W_Bits) (hwf : x.wf) (a b : Int)
    (h0 : 0 ≤ a) (hab : a < b) (hbn : b ≤ (x.nbits : Int)) :
    ∃ y x2 : W_Bits, descr_getitem_slice x (.int a) (.int b) = .ok y ∧
      descr_setitem_slice x (.int a) (.int b) (.bits y) = .ok x2 ∧ x2.uint = x.uint := by
  have hS : SHIFT = 63 := rfl
  have hchk : check_slice_range x a b = .ok () := by
    unfold check_slice_range
    rw [if_neg (not_le.mpr hab), if_neg (not_lt.mpr h0), if_neg (not_lt.mpr hbn)]
  have hanat : a.toNat < b.toNat := by omega
  by_cases hw : x.nbits ≤ SHIFT
  · have huint : x.uint = x.intval := by simp [W_Bits.uint, hw]
    refine ⟨⟨b.toNat - a.toNat,
      Int.land (int_rshift x.intval a.toNat) (get_int_mask (b.toNat - a.toNat)),
      Option.none⟩, ⟨x.nbits, x.intval, x.bigval⟩, ?_, ?_, ?_⟩
    · simp only [descr_getitem_slice, peel_slice_bound]
      rw [hchk, if_pos hw]
    · simp only [descr_setitem_slice, peel_slice_bound]
      rw [hchk, if_pos hw, if_neg (lt_irrefl (b.toNat - a.toNat)),
        int_slice_graft x.intval (huint ▸ hwf.1) a.toNat (b.toNat - a.toNat)]
    · rfl
  · have huint : x.uint = x.bigval.getD 0 := by simp [W_Bits.uint, hw]
    have h0v : 0 ≤ x.bigval.getD 0 := huint ▸ hwf.1
    by_cases hsw : b.toNat - a.toNat ≤ SHIFT
    · refine ⟨⟨b.toNat - a.toNat,
        (((x.bigval.getD 0).natAbs / 2 ^ a.toNat % 2 ^ (b.toNat - a.toNat) : Nat) : Int),
        Option.none⟩, ⟨x.nbits, x.intval,
          Option.some (x.bigval.getD 0)⟩, ?_, ?_, ?_⟩
      · simp only [descr_getitem_slice, peel_slice_bound]
        rw [hchk, if_neg hw, if_pos hsw,
          _rbigint_rshift_maskoff_retint_eq _ _ _ h0v hsw]
      · simp only [descr_setitem_slice, peel_slice_bound]
        rw [hchk, if_neg hw, if_pos hsw,
          setitem_long_int_helper_roundtrip (x.bigval.getD 0) a.toNat b.toNat h0v hanat
            (lt_of_lt_of_le (Nat.mod_lt _ (Nat.pos_pow_of_pos _ (by norm_num)))
              (Nat.pow_le_pow_right (by norm_num) hsw))]
      · simp only [W_Bits.uint]
        rw [if_neg hw, if_neg hw, Option.getD_some]
    · refine ⟨⟨b.toNat - a.toNat, 0, Option.some
        ((((x.bigval.getD 0).natAbs / 2 ^ a.toNat % 2 ^ (b.toNat - a.toNat) : Nat) : Int))⟩,
        ⟨x.nbits, x.intval, Option.some (x.bigval.getD 0)⟩, ?_, ?_, ?_⟩
      · simp only [descr_getitem_slice, peel_slice_bound]
        rw [hchk, if_neg hw, if_neg hsw,
          _rbigint_rshift_maskoff_eq _ _ _ h0v (by omega)]
      · simp only [descr_setitem_slice, peel_slice_bound]
        rw [hchk, if_neg hw, if_neg hsw]
        have hroll := setitem_long_long_helper_roundtrip (x.bigval.getD 0) a.toNat b.toNat
          h0v hanat
        rw [show ((⟨b.toNat - a.toNat, 0, Option.some
            ((((x.bigval.getD 0).natAbs / 2 ^ a.toNat % 2 ^ (b.toNat - a.toNat)
              : Nat) : Int))⟩ : W_Bits)).bigval.getD 0
          = (((x.bigval.getD 0).natAbs / 2 ^ a.toNat % 2 ^ (b.toNat - a.toNat)
            : Nat) : Int) from rfl, hroll]
      · simp only [W_Bits.uint]
        rw [if_neg hw, if_neg hw, Option.getD_some]

set_option maxRecDepth 100000 in
/-- Witness for C5 at a big-form value and the slice `[3, 70)`. -/
theorem C5_slice_roundtrip_witness :
    ∃ y x2 : W_Bits,
      descr_getitem_slice (W_Bits.mk 100 0 (Option.some (2 ^ 80 + 12345)))
        (.int 3) (.int 70) = .ok y ∧
      descr_setitem_slice (W_Bits.mk 100 0 (Option.some (2 ^ 80 + 12345)))
        (.int 3) (.int 70) (.bits y) = .ok x2 ∧
      x2.uint = (W_Bits.mk 100 0 (Option.some (2 ^ 80 + 12345))).uint :=
  C5_slice_roundtrip (W_Bits.mk 100 0 (Option.some (2 ^ 80 + 12345)))
    (by constructor <;> decide) 3 70 (by decide) (by decide) (by decide)

set_option maxRecDepth 100000 in
/-- Witness for C6 at bit 99 of a big-form `Bits<100>` holding 1 (the bit
lies beyond the significant digits, so it reads 0). -/
theorem C6_getitem_bit_witness :
    descr_getitem_index (W_Bits.mk 100 0 (Option.some 1)) (.int 99)
      = .ok ⟨1, (((W_Bits.mk 100 0 (Option.some 1)).uint.natAbs
          / 2 ^ (99 : Int).toNat % 2 : Nat) : Int), Option.none⟩ :=
  (C6_getitem_bit (W_Bits.mk 100 0 (Option.some 1)) (by constructor <;> decide)
    (by decide) 99 (by decide) (by decide)).1

set_option maxRecDepth 100000 in
/-- Witness for C7 at a big-form `Bits<100>` holding 7. -/
theorem C7_int_signed_projection_witness :
    descr_int (W_Bits.mk 100 0 (Option.some 7))
      = (W_Bits.mk 100 0 (Option.some 7)).uint
        - (((W_Bits.mk 100 0 (Option.some 7)).uint.natAbs
            / 2 ^ ((W_Bits.mk 100 0 (Option.some 7)).nbits - 1) % 2 : Nat) : Int)
          * 2 ^ (W_Bits.mk 100 0 (Option.some 7)).nbits :=
  C7_int_signed_projection (W_Bits.mk 100 0 (Option.some 7))
    (by constructor <;> decide) (by decide)

/-- Witness for C9 at `r = Bits<8>(0x11)`, `v = Bits<8>(0x22)`. -/
theorem C9_nonblocking_assign_witness :
    ∃ reg : W_BitsWithNext,
      W_Bits.descr_ilshift0 (W_Bits.mk 8 17 Option.none)
        (.bits (W_Bits.mk 8 34 Option.none)) = .ok reg ∧
      reg.toBits.uint = (W_Bits.mk 8 17 Option.none).uint ∧
      (W_BitsWithNext.descr_flip reg).toBits.uint = (W_Bits.mk 8 34 Option.none).uint ∧
      (∀ v2 : W_Bits, v2.nbits = (W_Bits.mk 8 17 Option.none).nbits → v2.wf →
        ∃ reg2 : W_BitsWithNext,
          W_BitsWithNext.descr_ilshift reg (.bits v2) = .ok reg2 ∧
          reg2.toBits.uint = reg.toBits.uint ∧
          (W_BitsWithNext.descr_flip reg2).toBits.uint = v2.uint) ∧
      (∀ w : W_Bits, w.nbits ≠ (W_Bits.mk 8 17 Option.none).nbits →
        W_Bits.descr_ilshift0 (W_Bits.mk 8 17 Option.none) (.bits w)
          = .error .valueError) ∧
      (∀ i : Int, W_Bits.descr_ilshift0 (W_Bits.mk 8 17 Option.none) (.int i)
          = .error .typeError) :=
  C9_nonblocking_assign (W_Bits.mk 8 17 Option.none) (W_Bits.mk 8 34 Option.none)
    rfl (by constructor <;> decide)

end Mamba
